import Mathlib

/-!
Verification of the paprika_helpers library (Docs/internal/paprika_helpers.py).

Shallow embedding conventions:
* Python numbers (ints and floats merged) are modelled as exact rationals
  together with the IEEE special values `inf`, `-inf` and `nan`
  (`PyNum`); rounding of floating-point arithmetic is abstracted away,
  special-value propagation (`nan`-poisoning, `inf - inf = nan`,
  comparisons with `nan` being false, division by exact zero raising
  `ZeroDivisionError`) is modelled faithfully.
* Python values are modelled by `PyVal` (None, bool, number, string,
  list, dict); dicts are association lists keyed by strings, with
  `get`/`set` acting on the first occurrence of a key, matching Python
  dict semantics for dicts reachable from Python (which never hold
  duplicate keys).
* Fallible Python code is embedded in `Except PyErr`; a raised exception
  is `Except.error`.
-/

/-- Python exception kinds raised by the embedded code. -/
inductive PyErr where
  | typeError
  | valueError
  | zeroDivisionError
  | attributeError
  | overflowError
deriving DecidableEq, Repr

/-- Python numbers: exact rationals plus the IEEE special values. -/
inductive PyNum where
  | fin (q : ℚ)
  | inf
  | ninf
  | nan
deriving DecidableEq, Repr

namespace PyNum

/-- Negation of a Python number. -/
def neg : PyNum → PyNum
  | fin q => fin (-q)
  | inf => ninf
  | ninf => inf
  | nan => nan

/-- Addition of Python numbers (`inf + (-inf) = nan`, `nan` poisons). -/
def add : PyNum → PyNum → PyNum
  | nan, _ => nan
  | _, nan => nan
  | fin a, fin b => fin (a + b)
  | inf, ninf => nan
  | ninf, inf => nan
  | inf, _ => inf
  | _, inf => inf
  | ninf, _ => ninf
  | _, ninf => ninf

/-- Subtraction of Python numbers. -/
def sub (a b : PyNum) : PyNum := add a (neg b)

/-- Multiplication of Python numbers (`0 * inf = nan`, `nan` poisons). -/
def mul : PyNum → PyNum → PyNum
  | nan, _ => nan
  | _, nan => nan
  | fin a, fin b => fin (a * b)
  | inf, inf => inf
  | inf, ninf => ninf
  | ninf, inf => ninf
  | ninf, ninf => inf
  | inf, fin b => if b > 0 then inf else if b < 0 then ninf else nan
  | ninf, fin b => if b > 0 then ninf else if b < 0 then inf else nan
  | fin a, inf => if a > 0 then inf else if a < 0 then ninf else nan
  | fin a, ninf => if a > 0 then ninf else if a < 0 then inf else nan

/-- Division of Python numbers; division by exact zero raises
`ZeroDivisionError` exactly as Python float/int division does. -/
def div : PyNum → PyNum → Except PyErr PyNum
  | a, fin q =>
    if q = 0 then .error .zeroDivisionError
    else .ok (match a with
      | fin p => fin (p / q)
      | inf => if q > 0 then inf else ninf
      | ninf => if q > 0 then ninf else inf
      | nan => nan)
  | nan, _ => .ok nan
  | _, nan => .ok nan
  | fin _, inf => .ok (fin 0)
  | fin _, ninf => .ok (fin 0)
  | inf, _ => .ok nan
  | ninf, _ => .ok nan

/-- Python `<` on numbers; every comparison involving `nan` is false. -/
def ltB : PyNum → PyNum → Bool
  | nan, _ => false
  | _, nan => false
  | fin a, fin b => decide (a < b)
  | fin _, inf => true
  | inf, _ => false
  | ninf, ninf => false
  | ninf, _ => true
  | _, ninf => false

/-- Python `==` on numbers; `nan == nan` is false. -/
def eqB : PyNum → PyNum → Bool
  | fin a, fin b => decide (a = b)
  | inf, inf => true
  | ninf, ninf => true
  | _, _ => false

/-- Python `<=` on numbers. -/
def leB (a b : PyNum) : Bool := ltB a b || eqB a b

/-- Python `>` on numbers. -/
def gtB (a b : PyNum) : Bool := ltB b a

/-- Python `>=` on numbers. -/
def geB (a b : PyNum) : Bool := leB b a

/-- `math.isfinite`. -/
def isFinite : PyNum → Bool
  | fin _ => true
  | _ => false

/-- `abs` on numbers (`abs(nan) = nan`, `abs(±inf) = inf`). -/
def absN : PyNum → PyNum
  | fin q => fin |q|
  | nan => nan
  | _ => inf

/-- `max(0.0, x)` as Python computes it: `x` if `x > 0.0` else `0.0`
(so `max(0.0, nan) = 0.0`). -/
def maxZero (x : PyNum) : PyNum := if gtB x (fin 0) then x else fin 0

/-- Truncation toward zero of a rational, as `int()` applied to a float. -/
def truncQ (q : ℚ) : ℚ := if 0 ≤ q then (⌊q⌋ : ℚ) else (⌈q⌉ : ℚ)

/-- Order embedding of non-`nan` Python numbers into a linear order,
used only in proofs about sorting. `nan` is mapped arbitrarily. -/
def toExt : PyNum → WithBot (WithTop ℚ)
  | fin q => ((q : WithTop ℚ) : WithBot (WithTop ℚ))
  | inf => ((⊤ : WithTop ℚ) : WithBot (WithTop ℚ))
  | ninf => ⊥
  | nan => ⊥

end PyNum

/-- Python values reachable in this library: None, bools, numbers,
strings, lists and string-keyed dicts (association lists). -/
inductive PyVal where
  | none
  | bool (b : Bool)
  | num (x : PyNum)
  | str (s : String)
  | list (xs : List PyVal)
  | dict (fields : List (String × PyVal))
deriving Repr

mutual

/-- Decidable equality on `PyVal` (structural; written by hand because
the nested inductive defeats automatic derivation). -/
def PyVal.decEq : (a b : PyVal) → Decidable (a = b)
  | .none, .none => .isTrue rfl
  | .none, .bool _ => .isFalse (fun h => PyVal.noConfusion h)
  | .none, .num _ => .isFalse (fun h => PyVal.noConfusion h)
  | .none, .str _ => .isFalse (fun h => PyVal.noConfusion h)
  | .none, .list _ => .isFalse (fun h => PyVal.noConfusion h)
  | .none, .dict _ => .isFalse (fun h => PyVal.noConfusion h)
  | .bool _, .none => .isFalse (fun h => PyVal.noConfusion h)
  | .bool a, .bool b =>
    if h : a = b then .isTrue (by rw [h]) else .isFalse (fun hh => h (PyVal.bool.inj hh))
  | .bool _, .num _ => .isFalse (fun h => PyVal.noConfusion h)
  | .bool _, .str _ => .isFalse (fun h => PyVal.noConfusion h)
  | .bool _, .list _ => .isFalse (fun h => PyVal.noConfusion h)
  | .bool _, .dict _ => .isFalse (fun h => PyVal.noConfusion h)
  | .num _, .none => .isFalse (fun h => PyVal.noConfusion h)
  | .num _, .bool _ => .isFalse (fun h => PyVal.noConfusion h)
  | .num a, .num b =>
    if h : a = b then .isTrue (by rw [h]) else .isFalse (fun hh => h (PyVal.num.inj hh))
  | .num _, .str _ => .isFalse (fun h => PyVal.noConfusion h)
  | .num _, .list _ => .isFalse (fun h => PyVal.noConfusion h)
  | .num _, .dict _ => .isFalse (fun h => PyVal.noConfusion h)
  | .str _, .none => .isFalse (fun h => PyVal.noConfusion h)
  | .str _, .bool _ => .isFalse (fun h => PyVal.noConfusion h)
  | .str _, .num _ => .isFalse (fun h => PyVal.noConfusion h)
  | .str a, .str b =>
    if h : a = b then .isTrue (by rw [h]) else .isFalse (fun hh => h (PyVal.str.inj hh))
  | .str _, .list _ => .isFalse (fun h => PyVal.noConfusion h)
  | .str _, .dict _ => .isFalse (fun h => PyVal.noConfusion h)
  | .list _, .none => .isFalse (fun h => PyVal.noConfusion h)
  | .list _, .bool _ => .isFalse (fun h => PyVal.noConfusion h)
  | .list _, .num _ => .isFalse (fun h => PyVal.noConfusion h)
  | .list _, .str _ => .isFalse (fun h => PyVal.noConfusion h)
  | .list xs, .list ys =>
    match PyVal.decEqL xs ys with
    | .isTrue h => .isTrue (by rw [h])
    | .isFalse h => .isFalse (fun hh => h (PyVal.list.inj hh))
  | .list _, .dict _ => .isFalse (fun h => PyVal.noConfusion h)
  | .dict _, .none => .isFalse (fun h => PyVal.noConfusion h)
  | .dict _, .bool _ => .isFalse (fun h => PyVal.noConfusion h)
  | .dict _, .num _ => .isFalse (fun h => PyVal.noConfusion h)
  | .dict _, .str _ => .isFalse (fun h => PyVal.noConfusion h)
  | .dict _, .list _ => .isFalse (fun h => PyVal.noConfusion h)
  | .dict xs, .dict ys =>
    match PyVal.decEqF xs ys with
    | .isTrue h => .isTrue (by rw [h])
    | .isFalse h => .isFalse (fun hh => h (PyVal.dict.inj hh))

/-- Decidable equality on lists of `PyVal`. -/
def PyVal.decEqL : (xs ys : List PyVal) → Decidable (xs = ys)
  | [], [] => .isTrue rfl
  | [], _ :: _ => .isFalse (fun h => List.noConfusion h)
  | _ :: _, [] => .isFalse (fun h => List.noConfusion h)
  | x :: xs, y :: ys =>
    match PyVal.decEq x y, PyVal.decEqL xs ys with
    | .isTrue h1, .isTrue h2 => .isTrue (by rw [h1, h2])
    | .isFalse h1, _ => .isFalse (fun h => h1 (List.cons.inj h).1)
    | _, .isFalse h2 => .isFalse (fun h => h2 (List.cons.inj h).2)

/-- Decidable equality on dict field lists. -/
def PyVal.decEqF : (xs ys : List (String × PyVal)) → Decidable (xs = ys)
  | [], [] => .isTrue rfl
  | [], _ :: _ => .isFalse (fun h => List.noConfusion h)
  | _ :: _, [] => .isFalse (fun h => List.noConfusion h)
  | (k1, v1) :: xs, (k2, v2) :: ys =>
    match inferInstanceAs (Decidable (k1 = k2)), PyVal.decEq v1 v2, PyVal.decEqF xs ys with
    | .isTrue h0, .isTrue h1, .isTrue h2 => .isTrue (by rw [h0, h1, h2])
    | .isFalse h0, _, _ =>
      .isFalse (fun h => h0 (congrArg Prod.fst (List.cons.inj h).1))
    | _, .isFalse h1, _ =>
      .isFalse (fun h => h1 (congrArg Prod.snd (List.cons.inj h).1))
    | _, _, .isFalse h2 => .isFalse (fun h => h2 (List.cons.inj h).2)

end

instance : DecidableEq PyVal := PyVal.decEq

namespace PyVal

/-- Python truthiness (`bool(x)`). -/
def truthy : PyVal → Bool
  | .none => false
  | .bool b => b
  | .num (.fin q) => decide (q ≠ 0)
  | .num _ => true
  | .str s => decide (s ≠ "")
  | .list [] => false
  | .list (_ :: _) => true
  | .dict [] => false
  | .dict (_ :: _) => true

end PyVal

/-- Python whitespace characters (as stripped by `str.strip()`). -/
def isPySpace (c : Char) : Bool :=
  c = ' ' || c = '\t' || c = '\n' || c = '\r' || c = '\x0b' || c = '\x0c'

/-- Strip leading and trailing whitespace from a character list. -/
def trimChars (cs : List Char) : List Char :=
  ((cs.dropWhile isPySpace).reverse.dropWhile isPySpace).reverse

/-- Split a character list on `'.'`, keeping empty chunks
(the behaviour of `path.split('.')`). -/
def splitChunks : List Char → List (List Char)
  | [] => [[]]
  | c :: rest =>
    match splitChunks rest with
    | h :: t => if c = '.' then [] :: h :: t else (c :: h) :: t
    | [] => [[c]]

/-- Numeric value of a list of decimal digit characters. -/
def digitsVal (cs : List Char) : Nat :=
  cs.foldl (fun a c => a * 10 + (c.toNat - 48)) 0

/-- All characters are ASCII decimal digits (and the list is nonempty). -/
def allDigits (cs : List Char) : Bool :=
  decide (cs ≠ []) && cs.all (fun c => c.isDigit)

/-- Split a character list at the first character satisfying `p`,
returning the parts before and after it (the split char dropped). -/
def splitOnceChar (p : Char → Bool) : List Char → Option (List Char × List Char)
  | [] => Option.none
  | c :: cs =>
    if p c then some ([], cs)
    else match splitOnceChar p cs with
      | some (l, r) => some (c :: l, r)
      | Option.none => Option.none

/-- `10 ^ n` on rationals, written structurally so it kernel-reduces. -/
def qpow10 : Nat → ℚ
  | 0 => 1
  | n + 1 => 10 * qpow10 n

/-- Parse an unsigned decimal mantissa (`"12"`, `"12."`, `".5"`, `"1.5"`). -/
def parseMantissa (cs : List Char) : Option ℚ :=
  match splitOnceChar (fun c => c = '.') cs with
  | Option.none => if allDigits cs then some ((digitsVal cs : ℚ)) else Option.none
  | some (ip, fp) =>
    if ip = [] then
      if allDigits fp then some ((digitsVal fp : ℚ) / qpow10 fp.length) else Option.none
    else if fp = [] then
      if allDigits ip then some ((digitsVal ip : ℚ)) else Option.none
    else if allDigits ip && allDigits fp then
      some ((digitsVal ip : ℚ) + (digitsVal fp : ℚ) / qpow10 fp.length)
    else Option.none

/-- Parse an exponent part (optional sign, then digits); returns
(is-negative, magnitude). -/
def parseExpPart (cs : List Char) : Option (Bool × Nat) :=
  match cs with
  | '+' :: ds => if allDigits ds then some (false, digitsVal ds) else Option.none
  | '-' :: ds => if allDigits ds then some (true, digitsVal ds) else Option.none
  | ds => if allDigits ds then some (false, digitsVal ds) else Option.none

/-- Python `float(s)` on a string: strip whitespace, optional sign, then
`inf`/`infinity`/`nan` (case-insensitive) or a decimal with optional
exponent.  Returns the exact rational value (float rounding abstracted;
digit-group underscores are not modelled). -/
def parsePyFloat (s : String) : Option PyNum :=
  let cs := trimChars s.toList
  let sgnRest : ℚ × List Char :=
    match cs with
    | '+' :: r => (1, r)
    | '-' :: r => (-1, r)
    | r => (1, r)
  let sgn := sgnRest.1
  let rest := sgnRest.2
  let lower := rest.map Char.toLower
  if lower = "inf".toList || lower = "infinity".toList then
    some (if sgn = 1 then .inf else .ninf)
  else if lower = "nan".toList then some .nan
  else
    match splitOnceChar (fun c => c = 'e' || c = 'E') rest with
    | Option.none => (parseMantissa rest).map (fun m => .fin (sgn * m))
    | some (mant, ex) => do
      let m ← parseMantissa mant
      let e ← parseExpPart ex
      pure (.fin (if e.1 then sgn * m / qpow10 e.2 else sgn * m * qpow10 e.2))

/-- Python `int(s)` on a string: strip whitespace, optional sign,
decimal digits only (so `int("3.5")` fails). -/
def parsePyInt (s : String) : Option ℤ :=
  let cs := trimChars s.toList
  match cs with
  | '+' :: ds => if allDigits ds then some ((digitsVal ds : ℤ)) else Option.none
  | '-' :: ds => if allDigits ds then some (-(digitsVal ds : ℤ)) else Option.none
  | ds => if allDigits ds then some ((digitsVal ds : ℤ)) else Option.none

namespace PyVal

/-- First-occurrence lookup in a dict's field list. -/
def dGet : List (String × PyVal) → String → Option PyVal
  | [], _ => Option.none
  | (k, v) :: fs, key => if k = key then some v else dGet fs key

/-- `d[key] = v`: replace the value at an existing key in place,
append at the end otherwise (Python dict insertion-order semantics). -/
def dSet : List (String × PyVal) → String → PyVal → List (String × PyVal)
  | [], key, v => [(key, v)]
  | (k, w) :: fs, key, v =>
    if k = key then (k, v) :: fs else (k, w) :: dSet fs key v

/-- `x.get(key, default)`; raises `AttributeError` when `x` is not a dict. -/
def getD : PyVal → String → PyVal → Except PyErr PyVal
  | .dict fs, key, dflt => .ok ((dGet fs key).getD dflt)
  | _, _, _ => .error .attributeError

/-- `x.get(key)` (default `None`). -/
def getN (x : PyVal) (key : String) : Except PyErr PyVal := getD x key .none

/-- Pure `x.get(key, default)` for dicts; returns the default on
non-dicts (only used in theorem statements under dict hypotheses). -/
def getP : PyVal → String → PyVal → PyVal
  | .dict fs, key, dflt => (dGet fs key).getD dflt
  | _, _, dflt => dflt

/-- Python `float(x)`. -/
def pyFloat : PyVal → Except PyErr PyNum
  | .num m => .ok m
  | .bool b => .ok (.fin (if b then 1 else 0))
  | .str s =>
    match parsePyFloat s with
    | some m => .ok m
    | Option.none => .error .valueError
  | _ => .error .typeError

/-- Python `int(x)` (truncation toward zero on numbers; `int(nan)`
raises `ValueError`, `int(±inf)` raises `OverflowError`). -/
def pyInt : PyVal → Except PyErr ℤ
  | .num (.fin q) => .ok (if 0 ≤ q then ⌊q⌋ else ⌈q⌉)
  | .num .nan => .error .valueError
  | .num _ => .error .overflowError
  | .bool b => .ok (if b then 1 else 0)
  | .str s =>
    match parsePyInt s with
    | some i => .ok i
    | Option.none => .error .valueError
  | _ => .error .typeError

/-- Numeric coercion used by Python arithmetic: numbers and bools only,
anything else raises `TypeError`. -/
def toNum : PyVal → Except PyErr PyNum
  | .num m => .ok m
  | .bool b => .ok (.fin (if b then 1 else 0))
  | _ => .error .typeError

/-- Python `abs(x)`. -/
def pyAbs : PyVal → Except PyErr PyNum
  | .num m => .ok (PyNum.absN m)
  | .bool b => .ok (.fin (if b then 1 else 0))
  | _ => .error .typeError

end PyVal

mutual

/-- Python `a < b` on values; unsupported operand pairs raise
`TypeError`.  (`==` inside list comparison is modelled structurally.) -/
def pyLt : PyVal → PyVal → Except PyErr Bool
  | .num a, .num b => .ok (PyNum.ltB a b)
  | .num a, .bool b => .ok (PyNum.ltB a (.fin (if b then 1 else 0)))
  | .bool a, .num b => .ok (PyNum.ltB (.fin (if a then 1 else 0)) b)
  | .bool a, .bool b =>
    .ok (PyNum.ltB (.fin (if a then 1 else 0)) (.fin (if b then 1 else 0)))
  | .str a, .str b => .ok (decide (a < b))
  | .list xs, .list ys => pyLtL xs ys
  | _, _ => .error .typeError

/-- Python list lexicographic `<`. -/
def pyLtL : List PyVal → List PyVal → Except PyErr Bool
  | [], [] => .ok false
  | [], _ :: _ => .ok true
  | _ :: _, [] => .ok false
  | x :: xs, y :: ys => if x = y then pyLtL xs ys else pyLt x y

end

/-- `exMap f l`: effectful map, first raised exception wins
(matches left-to-right evaluation of Python loops/comprehensions). -/
def exMap (f : α → Except PyErr β) : List α → Except PyErr (List β)
  | [] => .ok []
  | x :: xs => do
    let y ← f x
    let ys ← exMap f xs
    pure (y :: ys)

/-- `exFilter p l`: effectful filter, left to right. -/
def exFilter (p : α → Except PyErr Bool) : List α → Except PyErr (List α)
  | [] => .ok []
  | x :: xs => do
    let b ← p x
    let rest ← exFilter p xs
    pure (if b then x :: rest else rest)

/-- Accumulating loop of Python `sum(...)` (initial accumulator `0`). -/
def pySumAux : PyNum → List PyVal → Except PyErr PyNum
  | acc, [] => .ok acc
  | acc, v :: vs => do pySumAux (PyNum.add acc (← PyVal.toNum v)) vs

/-- Python `sum(values)` over a list of values. -/
def pySum (vs : List PyVal) : Except PyErr PyNum := pySumAux (.fin 0) vs

/-- Pure sum of a list of Python numbers. -/
def sumN (l : List PyNum) : PyNum := l.foldl PyNum.add (.fin 0)

/-- `key.isdigit()` (ASCII digits; nonempty). -/
def isDigitKey (s : String) : Bool := allDigits s.toList

/-- The `for key in keys` loop of `get_nested_value`.  Note the source
checks `if current is None or not isinstance(current, dict): return None`
at the top of every iteration, *before* its `key.isdigit()` branch; a
list-valued `current` therefore returns `None` there, and when `current`
is a dict the `isinstance(current, list)` test inside the digit branch
fails, so every digit segment yields `None` (the array-index branch is
unreachable). -/
def getNestedLoop : PyVal → List String → PyVal
  | current, [] => current
  | current, key :: rest =>
    match current with
    | .dict fs =>
      if isDigitKey key then PyVal.none
      else getNestedLoop ((PyVal.dGet fs key).getD .none) rest
    | _ => PyVal.none

/-- `get_nested_value(obj, path)`: dot-path lookup; total, never raises. -/
def get_nested_value (obj : PyVal) (path : String) : PyVal :=
  match obj with
  | .dict fs =>
    if PyVal.truthy (.dict fs) then
      getNestedLoop (.dict fs) ((splitChunks path.toList).map (fun cs => String.mk cs))
    else PyVal.none
  | _ => PyVal.none

/-- `validate_price(price)`: coerce to float, require positive and
finite, else `0.0`; `ValueError`/`TypeError` from `float()` caught. -/
def validate_price (price : PyVal) : PyNum :=
  match price with
  | .none => .fin 0
  | _ =>
    match PyVal.pyFloat price with
    | .ok m => if PyNum.gtB m (.fin 0) && PyNum.isFinite m then m else .fin 0
    | .error _ => .fin 0

/-- The local `validate_volume` of `filter_by_volume`: coerce to float,
require finite and nonnegative, else `0.0`. -/
def validate_volume (volume : PyVal) : PyNum :=
  match volume with
  | .none => .fin 0
  | _ =>
    match PyVal.pyFloat volume with
    | .ok m => if PyNum.isFinite m && PyNum.geB m (.fin 0) then m else .fin 0
    | .error _ => .fin 0

/-- The `volume_usd` cleaning line of `clean_pool_data`:
`max(0.0, float(pool.get('volume_usd', 0)) if pool.get('volume_usd') is
not None else 0.0)` — the `float()` call is *not* wrapped in try/except. -/
def cleanVolume (pool : PyVal) : Except PyErr PyNum := do
  let w ← PyVal.getN pool "volume_usd"
  if w = .none then pure (.fin 0)
  else do pure (PyNum.maxZero (← PyVal.pyFloat w))

/-- The `transactions` cleaning line:
`max(0, int(pool.get('transactions', 0)) if ... is not None else 0)`. -/
def cleanTransactions (pool : PyVal) : Except PyErr ℤ := do
  let w ← PyVal.getN pool "transactions"
  if w = .none then pure 0
  else do pure (max 0 (← PyVal.pyInt w))

/-- The `last_price_change_usd_24h` cleaning lines: keep the value if it
is not `None` and `math.isfinite(float(price_change))`, else `0.0`;
`float()` again unguarded. -/
def cleanChange (pool : PyVal) : Except PyErr PyNum := do
  let w ← PyVal.getN pool "last_price_change_usd_24h"
  if w = .none then pure (.fin 0)
  else do
    let f ← PyVal.pyFloat w
    pure (if PyNum.isFinite f then f else .fin 0)

/-- Cleaning of one pool record: non-dicts are skipped (`continue`);
otherwise the four numeric fields are rewritten on a copy and the record
is retained only if `price_usd > 0 or volume_usd > 0` (the retention
test reads the freshly set dict entries, which equal `p` and `v`). -/
def cleanRecord : PyVal → Except PyErr (Option PyVal)
  | .dict fs => do
    let p := validate_price ((PyVal.dGet fs "price_usd").getD .none)
    let v ← cleanVolume (.dict fs)
    let t ← cleanTransactions (.dict fs)
    let c ← cleanChange (.dict fs)
    let fs1 := PyVal.dSet fs "price_usd" (.num p)
    let fs2 := PyVal.dSet fs1 "volume_usd" (.num v)
    let fs3 := PyVal.dSet fs2 "transactions" (.num (.fin (t : ℚ)))
    let fs4 := PyVal.dSet fs3 "last_price_change_usd_24h" (.num c)
    if PyNum.gtB p (.fin 0) || PyNum.gtB v (.fin 0) then pure (some (.dict fs4))
    else pure Option.none
  | _ => pure Option.none

/-- The record loop of `clean_pool_data`. -/
def cleanLoop : List PyVal → Except PyErr (List PyVal)
  | [] => .ok []
  | pool :: rest => do
    let o ← cleanRecord pool
    let others ← cleanLoop rest
    pure (match o with | some r => r :: others | Option.none => others)

/-- `clean_pool_data(pools)`: `[]` for non-list input, else the cleaned
retained records in order. -/
def clean_pool_data : PyVal → Except PyErr PyVal
  | .list pools => do pure (.list (← cleanLoop pools))
  | _ => .ok (.list [])

/-- `extract_pools(data)`: `data.get("pools", [])` on dicts, `data` itself
otherwise. -/
def extract_pools : PyVal → PyVal
  | .dict fs => (PyVal.dGet fs "pools").getD (.list [])
  | data => data

/-- `extract_tokens(data)`. -/
def extract_tokens : PyVal → PyVal
  | .dict fs => (PyVal.dGet fs "tokens").getD (.list [])
  | data => data

/-- `extract_dexes(data)`. -/
def extract_dexes : PyVal → PyVal
  | .dict fs => (PyVal.dGet fs "dexes").getD (.list [])
  | data => data

/-- `extract_transactions(data)`. -/
def extract_transactions : PyVal → PyVal
  | .dict fs => (PyVal.dGet fs "transactions").getD (.list [])
  | data => data

/-- `filter_by_price_change(data, min_change)`: keeps items with
`abs(item.get("last_price_change_usd_24h", 0)) >= min_change`; the raw
value is used unsanitized, so `abs()` raises on non-numeric values. -/
def filter_by_price_change (data : List PyVal) (min_change : PyNum) :
    Except PyErr (List PyVal) :=
  exFilter (fun item => do
    let v ← PyVal.getD item "last_price_change_usd_24h" (.num (.fin 0))
    let a ← PyVal.pyAbs v
    pure (PyNum.geB a min_change)) data

/-- `filter_by_volume(data, min_volume)`: `[]` for non-list input, else
keeps items with `validate_volume(item.get("volume_usd")) >= min_volume`. -/
def filter_by_volume (data : PyVal) (min_volume : PyNum) :
    Except PyErr (List PyVal) :=
  match data with
  | .list items =>
    exFilter (fun item => do
      let v ← PyVal.getN item "volume_usd"
      pure (PyNum.geB (validate_volume v) min_volume)) items
  | _ => .ok []

/-- One step of stable insertion: `bf y x = true` means the already
placed element `y` stays before the inserted `x`. -/
def insertB (bf : α → α → Bool) (x : α) : List α → List α
  | [] => [x]
  | y :: ys => if bf y x then y :: insertB bf x ys else x :: y :: ys

/-- Stable sort by insertion.  With `bf y x = (key y > key x)` this is
`sorted(..., reverse=True)`, with `bf y x = (y < x)` plain `sorted(...)`;
for a total preorder the stable sorted permutation is unique, so this
coincides with Python's Timsort output. -/
def sortB (bf : α → α → Bool) : List α → List α
  | [] => []
  | x :: xs => insertB bf x (sortB bf xs)

/-- Insertion with a comparator that may raise (Python `<` can). -/
def insertE (bf : α → α → Except PyErr Bool) (x : α) :
    List α → Except PyErr (List α)
  | [] => .ok [x]
  | y :: ys => do
    if ← bf y x then pure (y :: (← insertE bf x ys)) else pure (x :: y :: ys)

/-- Sorting with a comparator that may raise. -/
def sortE (bf : α → α → Except PyErr Bool) : List α → Except PyErr (List α)
  | [] => .ok []
  | x :: xs => do insertE bf x (← sortE bf xs)

theorem insertB_perm (bf : α → α → Bool) (x : α) (l : List α) :
    (insertB bf x l).Perm (x :: l) := by
  induction l with
  | nil => simp [insertB]
  | cons y ys ih =>
    simp only [insertB]
    by_cases h : bf y x
    · simpa [h] using (ih.cons y).trans (List.Perm.swap x y ys)
    · simp [h]

theorem sortB_perm (bf : α → α → Bool) (l : List α) : (sortB bf l).Perm l := by
  induction l with
  | nil => simp [sortB]
  | cons x xs ih =>
    exact (insertB_perm bf x (sortB bf xs)).trans (ih.cons x)

theorem insertE_eq_insertB (bf : α → α → Except PyErr Bool)
    (bfB : α → α → Bool) (x : α) (l : List α)
    (h : ∀ y ∈ l, bf y x = .ok (bfB y x)) :
    insertE bf x l = .ok (insertB bfB x l) := by
  induction l with
  | nil => simp [insertE, insertB]
  | cons y ys ih =>
    have hy := h y (by simp)
    have hys : ∀ z ∈ ys, bf z x = .ok (bfB z x) := fun z hz => h z (by simp [hz])
    simp only [insertE, insertB, hy, ih hys]
    by_cases hb : bfB y x <;> simp [hb, Bind.bind, Except.bind, pure, Except.pure]

theorem sortE_eq_sortB (bf : α → α → Except PyErr Bool)
    (bfB : α → α → Bool) (l : List α)
    (h : ∀ a ∈ l, ∀ b ∈ l, bf a b = .ok (bfB a b)) :
    sortE bf l = .ok (sortB bfB l) := by
  induction l with
  | nil => simp [sortE, sortB]
  | cons x xs ih =>
    have hxs : ∀ a ∈ xs, ∀ b ∈ xs, bf a b = .ok (bfB a b) :=
      fun a ha b hb => h a (by simp [ha]) b (by simp [hb])
    have hins : ∀ y ∈ sortB bfB xs, bf y x = .ok (bfB y x) := by
      intro y hy
      have : y ∈ xs := (sortB_perm bfB xs).mem_iff.mp hy
      exact h y (by simp [this]) x (by simp)
    simp only [sortE, sortB, ih hxs, Bind.bind, Except.bind,
      insertE_eq_insertB bf bfB x (sortB bfB xs) hins]

theorem insertB_pairwise {β : Type} [LinearOrder β] (k : α → β) (x : α)
    (l : List α) (hl : l.Pairwise (fun a b => k b ≤ k a)) :
    (insertB (fun a b => decide (k b < k a)) x l).Pairwise
      (fun a b => k b ≤ k a) := by
  induction l with
  | nil => simp [insertB]
  | cons y ys ih =>
    rcases List.pairwise_cons.mp hl with ⟨hy, hys⟩
    simp only [insertB]
    by_cases h : k x < k y
    · simp only [decide_eq_true_eq, h, if_true]
      refine List.pairwise_cons.mpr ⟨?_, ih hys⟩
      intro z hz
      rcases List.mem_cons.mp ((insertB_perm _ x ys).mem_iff.mp hz) with hzx | hzys
      · exact hzx ▸ le_of_lt h
      · exact hy z hzys
    · simp only [decide_eq_true_eq, h, if_false]
      refine List.pairwise_cons.mpr ⟨?_, hl⟩
      intro z hz
      rcases List.mem_cons.mp hz with hzy | hzys
      · exact hzy ▸ not_lt.mp h
      · exact le_trans (hy z hzys) (not_lt.mp h)

theorem sortB_pairwise {β : Type} [LinearOrder β] (k : α → β) (l : List α) :
    (sortB (fun a b => decide (k b < k a)) l).Pairwise
      (fun a b => k b ≤ k a) := by
  induction l with
  | nil => simp [sortB]
  | cons x xs ih => exact insertB_pairwise k x _ ih

theorem filter_insertB {β γ : Type} [LinearOrder β] [DecidableEq γ]
    (k : α → β) (k2 : α → γ) (hc : ∀ a b, k a < k b → k2 a ≠ k2 b) (v : γ)
    (x : α) (l : List α) :
    (insertB (fun a b => decide (k b < k a)) x l).filter
        (fun a => decide (k2 a = v)) =
      if k2 x = v then x :: l.filter (fun a => decide (k2 a = v))
      else l.filter (fun a => decide (k2 a = v)) := by
  induction l with
  | nil => by_cases h : k2 x = v <;> simp [insertB, h]
  | cons y ys ih =>
    simp only [insertB]
    by_cases h : k x < k y
    · simp only [decide_eq_true_eq, h, if_true]
      by_cases hx : k2 x = v
      · have hyv : ¬ (k2 y = v) := by
          intro hy
          exact hc x y h (hx.trans hy.symm)
        simp [List.filter_cons, hx, hyv, ih]
      · by_cases hyv : k2 y = v <;> simp [List.filter_cons, hx, hyv, ih]
    · simp only [decide_eq_true_eq, h, if_false]
      by_cases hx : k2 x = v <;> by_cases hyv : k2 y = v <;>
        simp [List.filter_cons, hx, hyv]

theorem sortB_filter_key {β γ : Type} [LinearOrder β] [DecidableEq γ]
    (k : α → β) (k2 : α → γ) (hc : ∀ a b, k a < k b → k2 a ≠ k2 b) (v : γ)
    (l : List α) :
    (sortB (fun a b => decide (k b < k a)) l).filter
        (fun a => decide (k2 a = v)) =
      l.filter (fun a => decide (k2 a = v)) := by
  induction l with
  | nil => simp [sortB]
  | cons x xs ih =>
    simp only [sortB, filter_insertB k k2 hc v x (sortB _ xs), ih]
    by_cases hx : k2 x = v <;> simp [List.filter_cons, hx]

/-- The number held by a `PyVal` (garbage `nan` on non-numbers; only
used in statements guarded by `goodKey`-style hypotheses). -/
def numOf : PyVal → PyNum
  | .num m => m
  | _ => .nan

theorem ltB_eq_toExt (a b : PyNum) (ha : a ≠ .nan) (hb : b ≠ .nan) :
    PyNum.ltB a b = decide (PyNum.toExt a < PyNum.toExt b) := by
  cases a with
  | nan => exact absurd rfl ha
  | fin q =>
    cases b with
    | nan => exact absurd rfl hb
    | fin r => simp [PyNum.ltB, PyNum.toExt]
    | inf =>
      have h : PyNum.toExt (.fin q) < PyNum.toExt .inf :=
        WithBot.coe_lt_coe.mpr (WithTop.coe_lt_top q)
      simp [PyNum.ltB, h]
    | ninf =>
      have h : ¬ PyNum.toExt (.fin q) < PyNum.toExt .ninf := not_lt_bot
      simp [PyNum.ltB, h]
  | inf =>
    cases b with
    | nan => exact absurd rfl hb
    | fin r =>
      have h : ¬ PyNum.toExt .inf < PyNum.toExt (.fin r) := by
        intro hlt
        exact not_top_lt (WithBot.coe_lt_coe.mp hlt)
      simp [PyNum.ltB, h]
    | inf => simp [PyNum.ltB]
    | ninf =>
      have h : ¬ PyNum.toExt .inf < PyNum.toExt .ninf := not_lt_bot
      simp [PyNum.ltB, h]
  | ninf =>
    cases b with
    | nan => exact absurd rfl hb
    | fin r =>
      have h : PyNum.toExt .ninf < PyNum.toExt (.fin r) := WithBot.bot_lt_coe _
      simp [PyNum.ltB, h]
    | inf =>
      have h : PyNum.toExt .ninf < PyNum.toExt .inf := WithBot.bot_lt_coe _
      simp [PyNum.ltB, h]
    | ninf => simp [PyNum.ltB]

theorem eqB_eq_toExt (a b : PyNum) (ha : a ≠ .nan) (hb : b ≠ .nan) :
    PyNum.eqB a b = decide (PyNum.toExt a = PyNum.toExt b) := by
  cases a <;> cases b <;>
    simp_all [PyNum.eqB, PyNum.toExt, WithBot.coe_eq_coe, WithTop.coe_eq_coe]

theorem geB_eq_toExt (a b : PyNum) (ha : a ≠ .nan) (hb : b ≠ .nan) :
    PyNum.geB a b = decide (PyNum.toExt b ≤ PyNum.toExt a) := by
  simp only [PyNum.geB, PyNum.leB, ltB_eq_toExt b a hb ha,
    eqB_eq_toExt b a hb ha, le_iff_lt_or_eq]
  by_cases h1 : PyNum.toExt b < PyNum.toExt a <;>
    by_cases h2 : PyNum.toExt b = PyNum.toExt a <;> simp [h1, h2]

/-- The sort key of `top_n`: `lambda x: x.get(field, 0) or 0`
(raises `AttributeError` on non-dict elements, as `.get` does). -/
def sortKeyE (field : String) (x : PyVal) : Except PyErr PyVal := do
  let v ← PyVal.getD x field (.num (.fin 0))
  pure (if PyVal.truthy v then v else .num (.fin 0))

/-- Pure version of the sort key, meaningful on dicts. -/
def sortKeyP (field : String) (x : PyVal) : PyVal :=
  let v := PyVal.getP x field (.num (.fin 0))
  if PyVal.truthy v then v else .num (.fin 0)

/-- `x` is a dict. -/
def PyVal.isDict : PyVal → Bool
  | .dict _ => true
  | _ => false

/-- The value is a number other than `nan`. -/
def isNumNonNan : PyVal → Bool
  | .num .nan => false
  | .num _ => true
  | _ => false

/-- `x` is a dict whose (defaulted, `or 0`) sort key for `field` is a
non-`nan` number, so Python comparisons on the key are total and well
ordered. -/
def goodKey (field : String) (x : PyVal) : Bool :=
  x.isDict && isNumNonNan (sortKeyP field x)

/-- `top_n(data, field, n)`: decorate each element with its key (as
`sorted(key=...)` does, evaluating the key once per element), stable
sort descending, undecorate, truncate to the first `n` (the claim
restricts to `n ≥ 0`, so `n` is a natural number). -/
def top_n (data : List PyVal) (field : String) (n : Nat) :
    Except PyErr (List PyVal) := do
  let decorated ← exMap (fun x => do
    let kv ← sortKeyE field x
    pure (x, kv)) data
  let sorted ← sortE (fun a b => pyLt b.2 a.2) decorated
  pure ((sorted.map Prod.fst).take n)

theorem goodKey_isDict (f : String) (x : PyVal) (h : goodKey f x = true) :
    x.isDict = true := by
  rw [goodKey] at h
  exact (Bool.and_eq_true_iff.mp h).1

theorem goodKey_num (f : String) (x : PyVal) (h : goodKey f x = true) :
    sortKeyP f x = .num (numOf (sortKeyP f x)) ∧
      numOf (sortKeyP f x) ≠ .nan := by
  rw [goodKey] at h
  have hn : isNumNonNan (sortKeyP f x) = true := (Bool.and_eq_true_iff.mp h).2
  cases hk : sortKeyP f x with
  | num m =>
    cases m <;> rw [hk] at hn <;> simp_all [isNumNonNan, numOf]
  | none => rw [hk] at hn; simp [isNumNonNan] at hn
  | bool b => rw [hk] at hn; simp [isNumNonNan] at hn
  | str s => rw [hk] at hn; simp [isNumNonNan] at hn
  | list xs => rw [hk] at hn; simp [isNumNonNan] at hn
  | dict fs => rw [hk] at hn; simp [isNumNonNan] at hn

theorem sortKeyE_ok (f : String) (x : PyVal) (h : x.isDict = true) :
    sortKeyE f x = .ok (sortKeyP f x) := by
  cases x <;> simp_all [PyVal.isDict, sortKeyE, sortKeyP, PyVal.getD,
    PyVal.getP, Bind.bind, Except.bind, pure, Except.pure]

theorem exMap_decorate (f : String) (seq : List PyVal)
    (h : ∀ x ∈ seq, goodKey f x = true) :
    exMap (fun x => do
      let kv ← sortKeyE f x
      pure (x, kv)) seq = .ok (seq.map (fun x => (x, sortKeyP f x))) := by
  induction seq with
  | nil => simp [exMap]
  | cons x xs ih =>
    have hx := sortKeyE_ok f x (goodKey_isDict f x (h x (by simp)))
    have hxs := ih (fun y hy => h y (by simp [hy]))
    simp only [exMap, Bind.bind, Except.bind, pure, Except.pure] at hxs ⊢
    simp [hx, hxs]

theorem filter_map_comm (g : α → β) (p : β → Bool) (l : List α) :
    (l.map g).filter p = (l.filter (fun a => p (g a))).map g := by
  induction l with
  | nil => simp
  | cons x xs ih => by_cases hx : p (g x) <;> simp [List.filter_cons, hx, ih]

/-- Sort key of a decorated pair, embedded in a linear order (proofs only). -/
def topKey (e : PyVal × PyVal) : WithBot (WithTop ℚ) := PyNum.toExt (numOf e.2)

/-- Working characterization of `top_n` on well-keyed input: success,
length, element provenance, descending order, tie stability, and
completeness (nothing outside the result has a larger key). -/
theorem top_n_props (seq : List PyVal) (f : String) (n : Nat)
    (h : ∀ x ∈ seq, goodKey f x = true) :
    ∃ res, top_n seq f n = .ok res ∧
      res.length = min n seq.length ∧
      (∀ x ∈ res, x ∈ seq) ∧
      res.Pairwise (fun a b =>
        PyNum.geB (numOf (sortKeyP f a)) (numOf (sortKeyP f b)) = true) ∧
      (∀ v : PyVal, res.filter (fun a => decide (sortKeyP f a = v)) <+:
        seq.filter (fun a => decide (sortKeyP f a = v))) ∧
      (∀ x ∈ res, ∀ y ∈ seq, y ∉ res →
        PyNum.geB (numOf (sortKeyP f x)) (numOf (sortKeyP f y)) = true) := by
  classical
  have hdec := exMap_decorate f seq h
  have hkey : ∀ e ∈ seq.map (fun x => (x, sortKeyP f x)),
      ∃ m, e.2 = .num m ∧ m ≠ .nan := by
    intro e he
    obtain ⟨y, hy, rfl⟩ := List.mem_map.mp he
    obtain ⟨h1, h2⟩ := goodKey_num f y (h y hy)
    exact ⟨numOf (sortKeyP f y), h1, h2⟩
  have hsnd : ∀ e ∈ seq.map (fun x => (x, sortKeyP f x)),
      e.2 = sortKeyP f e.1 := by
    intro e he
    obtain ⟨y, hy, rfl⟩ := List.mem_map.mp he
    rfl
  have hcmp : ∀ a ∈ seq.map (fun x => (x, sortKeyP f x)),
      ∀ b ∈ seq.map (fun x => (x, sortKeyP f x)),
      pyLt b.2 a.2 = .ok (decide (topKey b < topKey a)) := by
    intro a ha b hb
    obtain ⟨ma, hma, hmana⟩ := hkey a ha
    obtain ⟨mb, hmb, hmbna⟩ := hkey b hb
    rw [topKey, topKey, hma, hmb]
    simp only [numOf, pyLt]
    rw [ltB_eq_toExt mb ma hmbna hmana]
  have hsortE := sortE_eq_sortB (fun a b => pyLt b.2 a.2)
    (fun a b => decide (topKey b < topKey a))
    (seq.map (fun x => (x, sortKeyP f x))) hcmp
  have hp2main : ((sortB (fun a b => decide (topKey b < topKey a))
      (seq.map (fun x => (x, sortKeyP f x)))).map Prod.fst).Pairwise
      (fun a b =>
        PyNum.geB (numOf (sortKeyP f a)) (numOf (sortKeyP f b)) = true) := by
    rw [List.pairwise_map]
    refine (sortB_pairwise topKey
      (seq.map (fun x => (x, sortKeyP f x)))).imp_of_mem ?_
    intro a b ha hb hab
    have haD := (sortB_perm _ _).mem_iff.mp ha
    have hbD := (sortB_perm _ _).mem_iff.mp hb
    obtain ⟨ma, hma, hmana⟩ := hkey a haD
    obtain ⟨mb, hmb, hmbna⟩ := hkey b hbD
    have hsa := hsnd a haD
    have hsb := hsnd b hbD
    rw [← hsa, ← hsb, hma, hmb]
    simp only [numOf]
    rw [geB_eq_toExt ma mb hmana hmbna]
    simp only [topKey, hma, hmb, numOf] at hab
    simpa using hab
  refine ⟨((sortB (fun a b => decide (topKey b < topKey a))
      (seq.map (fun x => (x, sortKeyP f x)))).map Prod.fst).take n,
    ?_, ?_, ?_, ?_, ?_, ?_⟩
  · simp only [top_n, Bind.bind, Except.bind, pure, Except.pure]
    simp only [Bind.bind, Except.bind, pure, Except.pure] at hdec
    rw [hdec]
    simp only [hsortE]
  · rw [List.length_take, List.length_map,
      (sortB_perm (fun a b => decide (topKey b < topKey a))
        (seq.map (fun x => (x, sortKeyP f x)))).length_eq,
      List.length_map]
  · intro x hx
    have hx2 := List.take_subset n _ hx
    obtain ⟨e, he, rfl⟩ := List.mem_map.mp hx2
    have heD := (sortB_perm _ _).mem_iff.mp he
    obtain ⟨y, hy, hey⟩ := List.mem_map.mp heD
    rw [← hey]
    exact hy
  · exact hp2main.sublist (List.take_sublist n _)
  · intro v
    have compat : ∀ a b : PyVal × PyVal, topKey a < topKey b → a.2 ≠ b.2 := by
      intro a b hlt heq
      simp only [topKey, heq] at hlt
      exact lt_irrefl _ hlt
    have step4 := sortB_filter_key topKey Prod.snd compat v
      (seq.map (fun x => (x, sortKeyP f x)))
    have heq : ((sortB (fun a b => decide (topKey b < topKey a))
        (seq.map (fun x => (x, sortKeyP f x)))).map Prod.fst).filter
          (fun a => decide (sortKeyP f a = v)) =
        seq.filter (fun a => decide (sortKeyP f a = v)) := by
      rw [filter_map_comm]
      have hcongr : (sortB (fun a b => decide (topKey b < topKey a))
          (seq.map (fun x => (x, sortKeyP f x)))).filter
            (fun e => decide (sortKeyP f e.1 = v)) =
          (sortB (fun a b => decide (topKey b < topKey a))
            (seq.map (fun x => (x, sortKeyP f x)))).filter
            (fun e => decide (e.2 = v)) := by
        refine List.filter_congr ?_
        intro e he
        have heD := (sortB_perm _ _).mem_iff.mp he
        rw [hsnd e heD]
      rw [hcongr, step4,
        filter_map_comm (fun x => (x, sortKeyP f x)) (fun e => decide (e.2 = v)) seq,
        List.map_map]
      have hid : (Prod.fst ∘ fun x : PyVal => (x, sortKeyP f x)) =
          fun x : PyVal => x := rfl
      rw [hid, List.map_id']
    calc ((((sortB (fun a b => decide (topKey b < topKey a))
          (seq.map (fun x => (x, sortKeyP f x)))).map Prod.fst).take n).filter
            (fun a => decide (sortKeyP f a = v)))
        <+: (((sortB (fun a b => decide (topKey b < topKey a))
          (seq.map (fun x => (x, sortKeyP f x)))).map Prod.fst).filter
            (fun a => decide (sortKeyP f a = v))) :=
          List.IsPrefix.filter _ (List.take_prefix n _)
      _ = seq.filter (fun a => decide (sortKeyP f a = v)) := heq
  · intro x hx y hy hynot
    have hsplit := List.take_append_drop n
      ((sortB (fun a b => decide (topKey b < topKey a))
        (seq.map (fun x => (x, sortKeyP f x)))).map Prod.fst)
    have hyS : y ∈ (sortB (fun a b => decide (topKey b < topKey a))
        (seq.map (fun x => (x, sortKeyP f x)))).map Prod.fst := by
      have hperm : ((sortB (fun a b => decide (topKey b < topKey a))
          (seq.map (fun x => (x, sortKeyP f x)))).map Prod.fst).Perm
          ((seq.map (fun x => (x, sortKeyP f x))).map Prod.fst) :=
        (sortB_perm _ _).map Prod.fst
      have : ((seq.map (fun x => (x, sortKeyP f x))).map Prod.fst) = seq := by
        rw [List.map_map]
        have hid : (Prod.fst ∘ fun x : PyVal => (x, sortKeyP f x)) =
            fun x : PyVal => x := rfl
        rw [hid, List.map_id']
      rw [this] at hperm
      exact hperm.mem_iff.mpr hy
    have hydrop : y ∈ ((sortB (fun a b => decide (topKey b < topKey a))
        (seq.map (fun x => (x, sortKeyP f x)))).map Prod.fst).drop n := by
      rcases List.mem_append.mp (hsplit ▸ hyS) with h1 | h2
      · exact absurd h1 hynot
      · exact h2
    have := List.pairwise_append.mp (hsplit ▸ hp2main)
    exact this.2.2 x hx y hydrop

/-- C7: for every sequence of records whose sort-key values are ordered
numbers and every `n ≥ 0`, `top_n(seq, f, n)` succeeds; its result has
length `min n (len seq)`, is sorted descending by the field value
(missing or falsy values read as 0), contains only elements of `seq`
(no elements invented), and ties keep their original relative order
(for every key value `v`, the key-`v` elements of the result are a
prefix of the key-`v` elements of the input). -/
theorem top_n_spec (seq : List PyVal) (f : String) (n : Nat)
    (h : ∀ x ∈ seq, goodKey f x = true) :
    ∃ res, top_n seq f n = .ok res ∧
      res.length = min n seq.length ∧
      (∀ x ∈ res, x ∈ seq) ∧
      res.Pairwise (fun a b =>
        PyNum.geB (numOf (sortKeyP f a)) (numOf (sortKeyP f b)) = true) ∧
      (∀ v : PyVal, res.filter (fun a => decide (sortKeyP f a = v)) <+:
        seq.filter (fun a => decide (sortKeyP f a = v))) := by
  obtain ⟨res, h1, h2, h3, h4, h5, _⟩ := top_n_props seq f n h
  exact ⟨res, h1, h2, h3, h4, h5⟩

/-- Witness for C7 at a concrete three-record input with a tie. -/
theorem top_n_spec_witness :
    (∀ x ∈ [PyVal.dict [("v", PyVal.num (.fin 3))],
        PyVal.dict [("v", PyVal.num (.fin 5))],
        PyVal.dict [("v", PyVal.num (.fin 5)), ("tag", PyVal.str "late")]],
      goodKey "v" x = true) ∧
    (∃ res, top_n [PyVal.dict [("v", PyVal.num (.fin 3))],
        PyVal.dict [("v", PyVal.num (.fin 5))],
        PyVal.dict [("v", PyVal.num (.fin 5)), ("tag", PyVal.str "late")]]
        "v" 2 = .ok res ∧
      res.length = min 2 ([PyVal.dict [("v", PyVal.num (.fin 3))],
        PyVal.dict [("v", PyVal.num (.fin 5))],
        PyVal.dict [("v", PyVal.num (.fin 5)), ("tag", PyVal.str "late")]] :
          List PyVal).length ∧
      (∀ x ∈ res, x ∈ [PyVal.dict [("v", PyVal.num (.fin 3))],
        PyVal.dict [("v", PyVal.num (.fin 5))],
        PyVal.dict [("v", PyVal.num (.fin 5)), ("tag", PyVal.str "late")]]) ∧
      res.Pairwise (fun a b =>
        PyNum.geB (numOf (sortKeyP "v" a)) (numOf (sortKeyP "v" b)) = true) ∧
      (∀ v : PyVal, res.filter (fun a => decide (sortKeyP "v" a = v)) <+:
        ([PyVal.dict [("v", PyVal.num (.fin 3))],
          PyVal.dict [("v", PyVal.num (.fin 5))],
          PyVal.dict [("v", PyVal.num (.fin 5)), ("tag", PyVal.str "late")]] :
            List PyVal).filter (fun a => decide (sortKeyP "v" a = v)))) := by
  have hg : ∀ x ∈ [PyVal.dict [("v", PyVal.num (.fin 3))],
      PyVal.dict [("v", PyVal.num (.fin 5))],
      PyVal.dict [("v", PyVal.num (.fin 5)), ("tag", PyVal.str "late")]],
      goodKey "v" x = true := by
    intro x hx
    fin_cases hx <;>
      simp [goodKey, PyVal.isDict, isNumNonNan, sortKeyP, PyVal.getP,
        PyVal.dGet, PyVal.truthy]
  exact ⟨hg, top_n_spec _ "v" 2 hg⟩

/-- Pure volume-filter predicate of `filter_by_volume` (for dicts). -/
def volKeep (mv : PyNum) (i : PyVal) : Bool :=
  PyNum.geB (validate_volume (PyVal.getP i "volume_usd" .none)) mv

theorem filter_by_volume_ok (items : List PyVal) (mv : PyNum)
    (hd : ∀ x ∈ items, x.isDict = true) :
    filter_by_volume (.list items) mv = .ok (items.filter (volKeep mv)) := by
  induction items with
  | nil => simp [filter_by_volume, exFilter]
  | cons x xs ih =>
    have hx : PyVal.getN x "volume_usd" =
        .ok (PyVal.getP x "volume_usd" .none) := by
      have := hd x (by simp)
      cases x <;> simp_all [PyVal.isDict, PyVal.getN, PyVal.getD, PyVal.getP]
    have hxs := ih (fun y hy => hd y (by simp [hy]))
    simp only [filter_by_volume, Bind.bind, Except.bind, pure,
      Except.pure] at hxs
    by_cases hb : volKeep mv x
    · rw [volKeep] at hb
      simp [filter_by_volume, exFilter, Bind.bind, Except.bind, pure,
        Except.pure, hx, hxs, List.filter_cons, hb, volKeep]
    · rw [volKeep] at hb
      simp only [Bool.not_eq_true] at hb
      simp [filter_by_volume, exFilter, Bind.bind, Except.bind, pure,
        Except.pure, hx, hxs, List.filter_cons, hb, volKeep]

/-- The raw field value is something Python `abs()` accepts. -/
def absable : PyVal → Bool
  | .num _ => true
  | .bool _ => true
  | _ => false

/-- Pure version of `abs()` on absable values. -/
def pyAbsP : PyVal → PyNum
  | .num m => PyNum.absN m
  | .bool b => .fin (if b then 1 else 0)
  | _ => .nan

/-- Pure keep-predicate of `filter_by_price_change` (no sanitation:
the raw absolute value is compared). -/
def chgKeep (mc : PyNum) (i : PyVal) : Bool :=
  PyNum.geB (pyAbsP (PyVal.getP i "last_price_change_usd_24h" (.num (.fin 0)))) mc

theorem filter_by_price_change_ok (items : List PyVal) (mc : PyNum)
    (hd : ∀ x ∈ items, x.isDict = true ∧
      absable (PyVal.getP x "last_price_change_usd_24h" (.num (.fin 0))) = true) :
    filter_by_price_change items mc = .ok (items.filter (chgKeep mc)) := by
  induction items with
  | nil => simp [filter_by_price_change, exFilter]
  | cons x xs ih =>
    obtain ⟨hxd, hxa⟩ := hd x (by simp)
    have hget : PyVal.getD x "last_price_change_usd_24h" (.num (.fin 0)) =
        .ok (PyVal.getP x "last_price_change_usd_24h" (.num (.fin 0))) := by
      cases x <;> simp_all [PyVal.isDict, PyVal.getD, PyVal.getP]
    have habs : PyVal.pyAbs (PyVal.getP x "last_price_change_usd_24h"
          (.num (.fin 0))) =
        .ok (pyAbsP (PyVal.getP x "last_price_change_usd_24h"
          (.num (.fin 0)))) := by
      cases hv : PyVal.getP x "last_price_change_usd_24h" (.num (.fin 0)) <;>
        rw [hv] at hxa <;> simp_all [absable, PyVal.pyAbs, pyAbsP]
    have hxs := ih (fun y hy => hd y (by simp [hy]))
    simp only [filter_by_price_change, Bind.bind, Except.bind, pure,
      Except.pure] at hxs
    by_cases hb : chgKeep mc x
    · rw [chgKeep] at hb
      simp [filter_by_price_change, exFilter, Bind.bind, Except.bind, pure,
        Except.pure, hget, habs, hxs, List.filter_cons, hb, chgKeep]
    · rw [chgKeep] at hb
      simp only [Bool.not_eq_true] at hb
      simp [filter_by_price_change, exFilter, Bind.bind, Except.bind, pure,
        Except.pure, hget, habs, hxs, List.filter_cons, hb, chgKeep]

/-- C6 (amended): `filter_by_volume` never raises on lists of records and
keeps exactly those whose sanitized volume (`validate_volume`: missing,
unparsable, non-finite or negative coerced to 0) is at least the
threshold; `filter_by_price_change` applies no sanitation: on records
whose raw field value is numeric it keeps exactly those whose absolute
raw value (missing read as 0, non-finite values compared as-is) is at
least the threshold. -/
theorem filter_threshold_spec :
    (∀ (items : List PyVal) (mv : PyNum), (∀ x ∈ items, x.isDict = true) →
      filter_by_volume (.list items) mv = .ok (items.filter (volKeep mv))) ∧
    (∀ (items : List PyVal) (mc : PyNum),
      (∀ x ∈ items, x.isDict = true ∧
        absable (PyVal.getP x "last_price_change_usd_24h"
          (.num (.fin 0))) = true) →
      filter_by_price_change items mc = .ok (items.filter (chgKeep mc))) :=
  ⟨filter_by_volume_ok, filter_by_price_change_ok⟩

/-- Witness for C6 at concrete inputs. -/
theorem filter_threshold_spec_witness :
    filter_by_volume (.list [PyVal.dict [("volume_usd", PyVal.num (.fin 5))]])
        (.fin 1) =
      .ok (([PyVal.dict [("volume_usd", PyVal.num (.fin 5))]] :
        List PyVal).filter (volKeep (.fin 1))) ∧
    filter_by_price_change
        [PyVal.dict [("last_price_change_usd_24h", PyVal.num (.fin (-3)))]]
        (.fin 2) =
      .ok (([PyVal.dict [("last_price_change_usd_24h",
        PyVal.num (.fin (-3)))]] : List PyVal).filter (chgKeep (.fin 2))) :=
  ⟨filter_threshold_spec.1 _ (.fin 1)
      (by intro x hx; fin_cases hx; simp [PyVal.isDict]),
    filter_threshold_spec.2 _ (.fin 2)
      (by
        intro x hx
        fin_cases hx
        simp [PyVal.isDict, absable, PyVal.getP, PyVal.dGet])⟩

/-- Counterexample for C6 as stated: `filter_by_price_change` raises
`TypeError` on a non-numeric field value instead of sanitizing it to 0,
so the filters do not all apply the numeric sanitation of the spec and
are not raise-free. -/
theorem filter_by_price_change_counterexample :
    filter_by_price_change
        [PyVal.dict [("last_price_change_usd_24h", PyVal.str "bad")]]
        (.fin 0) = .error .typeError := by rfl

/-- The data pipeline of `get_top_movers` applied to the fetched pools
response (the network fetch is abstracted as the `fetched` argument):
extract pools → filter by minimum volume → `top_n` on the signed
`last_price_change_usd_24h` value.  No cleaning step is involved. -/
def get_top_movers_result (fetched : PyVal) (limit : Nat)
    (min_volume : PyNum) : Except PyErr (List PyVal) := do
  let pool_list := extract_pools fetched
  let filtered ← filter_by_volume pool_list min_volume
  top_n filtered "last_price_change_usd_24h" limit

/-- C3 (amended): `get_top_movers` returns the top `limit` pools among
the fetched pools whose sanitized `volume_usd` is at least `min_volume`,
ranked descending by the *signed* value of `last_price_change_usd_24h`
(not by magnitude); no cleaning step is applied. -/
theorem get_top_movers_amended (fetched : PyVal) (limit : Nat) (mv : PyNum)
    (items : List PyVal) (hf : extract_pools fetched = .list items)
    (hg : ∀ x ∈ items, goodKey "last_price_change_usd_24h" x = true) :
    ∃ res, get_top_movers_result fetched limit mv = .ok res ∧
      res.length = min limit (items.filter (volKeep mv)).length ∧
      (∀ x ∈ res, x ∈ items.filter (volKeep mv)) ∧
      res.Pairwise (fun a b =>
        PyNum.geB (numOf (sortKeyP "last_price_change_usd_24h" a))
          (numOf (sortKeyP "last_price_change_usd_24h" b)) = true) ∧
      (∀ x ∈ res, ∀ y ∈ items.filter (volKeep mv), y ∉ res →
        PyNum.geB (numOf (sortKeyP "last_price_change_usd_24h" x))
          (numOf (sortKeyP "last_price_change_usd_24h" y)) = true) := by
  have hd : ∀ x ∈ items, x.isDict = true :=
    fun x hx => goodKey_isDict _ x (hg x hx)
  have hfv := filter_by_volume_ok items mv hd
  have hgf : ∀ x ∈ items.filter (volKeep mv),
      goodKey "last_price_change_usd_24h" x = true :=
    fun x hx => hg x (List.mem_of_mem_filter hx)
  obtain ⟨res, h1, h2, h3, h4, _, h6⟩ :=
    top_n_props (items.filter (volKeep mv)) "last_price_change_usd_24h"
      limit hgf
  refine ⟨res, ?_, h2, h3, h4, h6⟩
  simp only [get_top_movers_result, hf, Bind.bind, Except.bind]
  rw [hfv]
  exact h1

/-- Witness for C3 (amended) at a concrete fetched response. -/
theorem get_top_movers_amended_witness :
    ∃ res, get_top_movers_result
        (.dict [("pools", .list [PyVal.dict [("volume_usd", PyVal.num (.fin 2)),
          ("last_price_change_usd_24h", PyVal.num (.fin 7))]])]) 1 (.fin 1) =
        .ok res ∧
      res.length = min 1 (([PyVal.dict [("volume_usd", PyVal.num (.fin 2)),
        ("last_price_change_usd_24h", PyVal.num (.fin 7))]] :
          List PyVal).filter (volKeep (.fin 1))).length ∧
      (∀ x ∈ res, x ∈ ([PyVal.dict [("volume_usd", PyVal.num (.fin 2)),
        ("last_price_change_usd_24h", PyVal.num (.fin 7))]] :
          List PyVal).filter (volKeep (.fin 1))) ∧
      res.Pairwise (fun a b =>
        PyNum.geB (numOf (sortKeyP "last_price_change_usd_24h" a))
          (numOf (sortKeyP "last_price_change_usd_24h" b)) = true) ∧
      (∀ x ∈ res, ∀ y ∈ ([PyVal.dict [("volume_usd", PyVal.num (.fin 2)),
          ("last_price_change_usd_24h", PyVal.num (.fin 7))]] :
            List PyVal).filter (volKeep (.fin 1)), y ∉ res →
        PyNum.geB (numOf (sortKeyP "last_price_change_usd_24h" x))
          (numOf (sortKeyP "last_price_change_usd_24h" y)) = true) :=
  get_top_movers_amended _ 1 (.fin 1) _ rfl
    (by
      intro x hx
      fin_cases hx
      simp [goodKey, PyVal.isDict, isNumNonNan, sortKeyP, PyVal.getP,
        PyVal.dGet, PyVal.truthy])

/-- Counterexample for C3 as stated: with two pools of 24h change −100
and +10, `get_top_movers` returns the +10 pool, although the −100 pool
has the strictly larger magnitude — the ranking is by signed value, not
by absolute value. -/
theorem get_top_movers_magnitude_counterexample :
    get_top_movers_result
        (.dict [("pools", .list
          [PyVal.dict [("last_price_change_usd_24h", PyVal.num (.fin (-100)))],
           PyVal.dict [("last_price_change_usd_24h", PyVal.num (.fin 10))]])])
        1 (.fin 0) =
      .ok [PyVal.dict [("last_price_change_usd_24h", PyVal.num (.fin 10))]] ∧
    PyNum.gtB (PyNum.absN (.fin (-100))) (PyNum.absN (.fin 10)) = true := by
  constructor
  · norm_num [get_top_movers_result, extract_pools, PyVal.dGet,
      filter_by_volume, exFilter, PyVal.getN, PyVal.getD, validate_volume,
      PyVal.pyFloat, PyNum.geB, PyNum.leB, PyNum.ltB, PyNum.eqB,
      PyNum.isFinite, top_n, exMap, sortKeyE, PyVal.truthy, sortE, insertE,
      pyLt, Bind.bind, Except.bind, pure, Except.pure]
  · norm_num [PyNum.gtB, PyNum.ltB, PyNum.absN, abs]

/-- C1 (code evaluated at failing inputs): a numeric path segment never
indexes into a sequence — the loop guard returns `None` for any
non-dict `current` before the digit branch can run, and for a dict
`current` the `isinstance(current, list)` test fails — so an in-bounds
index into a list yields `None` instead of the element. -/
theorem get_nested_value_digit_bug :
    get_nested_value
        (.dict [("tokens", .list [PyVal.dict [("symbol", PyVal.str "ETH")]])])
        "tokens.0.symbol" = PyVal.none ∧
    get_nested_value
        (.dict [("a", .list [PyVal.num (.fin 10), PyVal.num (.fin 20)])])
        "a.0" = PyVal.none :=
  ⟨rfl, rfl⟩

/-- C2 (code evaluated at the failing input): `clean_pool_data` raises
`ValueError` on an unparsable `volume_usd` string — the `float()` call
on that field is not wrapped in try/except — instead of coercing the
value to 0. -/
theorem clean_pool_data_raises :
    clean_pool_data (.list [.dict [("volume_usd", PyVal.str "abc")]]) =
      .error .valueError :=
  rfl

/-- C10: on any dict input lacking the corresponding named array field
— including the failure-tagged error dict returned by `api_request`
after exhausting its retries — each extraction helper returns the empty
list, so a failed fetch flows through extraction as no data without
raising. -/
theorem extract_missing_array_fields (fs : List (String × PyVal)) :
    (PyVal.dGet fs "pools" = Option.none →
      extract_pools (.dict fs) = .list []) ∧
    (PyVal.dGet fs "tokens" = Option.none →
      extract_tokens (.dict fs) = .list []) ∧
    (PyVal.dGet fs "dexes" = Option.none →
      extract_dexes (.dict fs) = .list []) ∧
    (PyVal.dGet fs "transactions" = Option.none →
      extract_transactions (.dict fs) = .list []) := by
  refine ⟨fun h => ?_, fun h => ?_, fun h => ?_, fun h => ?_⟩ <;>
    simp [extract_pools, extract_tokens, extract_dexes,
      extract_transactions, h]

/-- Witness for C10 at the failure-tagged error dict. -/
theorem extract_missing_array_fields_witness :
    extract_pools (.dict [("error", PyVal.str "timeout")]) = .list [] ∧
    extract_tokens (.dict [("error", PyVal.str "timeout")]) = .list [] ∧
    extract_dexes (.dict [("error", PyVal.str "timeout")]) = .list [] ∧
    extract_transactions (.dict [("error", PyVal.str "timeout")]) =
      .list [] :=
  ⟨(extract_missing_array_fields _).1 rfl,
    (extract_missing_array_fields _).2.1 rfl,
    (extract_missing_array_fields _).2.2.1 rfl,
    (extract_missing_array_fields _).2.2.2 rfl⟩

/-- The `cumsum` loop of `calculate_gini_coefficient`:
`cumsum += (i + 1) * value` over the enumerated sorted values.  A
non-numeric value makes the accumulation raise `TypeError` (in Python
the `0 + ...` addition raises it). -/
def giniCumsum : Nat → PyNum → List PyVal → Except PyErr PyNum
  | _, acc, [] => .ok acc
  | i, acc, v :: vs => do
    giniCumsum (i + 1)
      (PyNum.add acc (PyNum.mul (.fin ((i : ℚ) + 1)) (← PyVal.toNum v))) vs

/-- `calculate_gini_coefficient(values)`: 0 for fewer than 2 values,
else sort ascending and apply
`(2*cumsum) / (n*sum(sorted_values)) - (n+1)/n`. -/
def calculate_gini_coefficient (values : List PyVal) :
    Except PyErr PyNum :=
  if values.length < 2 then .ok (.fin 0)
  else do
    let sorted_values ← sortE (fun a b => pyLt a b) values
    let cumsum ← giniCumsum 0 (.fin 0) sorted_values
    let s ← pySum sorted_values
    let d1 ← PyNum.div (PyNum.mul (.fin 2) cumsum)
      (PyNum.mul (.fin (sorted_values.length : ℚ)) s)
    let d2 ← PyNum.div (.fin ((sorted_values.length : ℚ) + 1))
      (.fin (sorted_values.length : ℚ))
    pure (PyNum.sub d1 d2)

/-- Pure numeric reading of a value (numbers and bools; garbage `nan`
otherwise, only reached under all-numeric hypotheses or after a
successful `sum()` over the same values). -/
def toNumP : PyVal → PyNum
  | .num m => m
  | .bool b => .fin (if b then 1 else 0)
  | _ => .nan

theorem sortE_allnum (l : List PyVal) (h : ∀ v ∈ l, ∃ m, v = .num m) :
    sortE (fun a b => pyLt a b) l =
      .ok (sortB (fun a b => PyNum.ltB (toNumP a) (toNumP b)) l) := by
  refine sortE_eq_sortB _ _ l ?_
  intro a ha b hb
  obtain ⟨ma, rfl⟩ := h a ha
  obtain ⟨mb, rfl⟩ := h b hb
  simp [pyLt, toNumP]

theorem giniCumsum_ok (l : List PyVal) (h : ∀ v ∈ l, ∃ m, v = .num m) :
    ∀ (i : Nat) (acc : PyNum), ∃ c, giniCumsum i acc l = .ok c := by
  induction l with
  | nil => intro i acc; exact ⟨acc, rfl⟩
  | cons v vs ih =>
    intro i acc
    obtain ⟨m, rfl⟩ := h v (by simp)
    obtain ⟨c, hc⟩ := ih (fun w hw => h w (by simp [hw])) (i + 1)
      (PyNum.add acc (PyNum.mul (.fin ((i : ℚ) + 1)) m))
    refine ⟨c, ?_⟩
    simp [giniCumsum, PyVal.toNum, Bind.bind, Except.bind, hc]

theorem pySumAux_allnum (l : List PyVal) (h : ∀ v ∈ l, ∃ m, v = .num m) :
    ∀ acc : PyNum, pySumAux acc l =
      .ok (l.foldl (fun a v => PyNum.add a (toNumP v)) acc) := by
  induction l with
  | nil => intro acc; rfl
  | cons v vs ih =>
    intro acc
    obtain ⟨m, rfl⟩ := h v (by simp)
    simp [pySumAux, PyVal.toNum, Bind.bind, Except.bind, toNumP,
      ih (fun w hw => h w (by simp [hw]))]

theorem addRightComm (x a b : PyNum) :
    PyNum.add (PyNum.add x a) b = PyNum.add (PyNum.add x b) a := by
  cases x <;> cases a <;> cases b <;> simp [PyNum.add, add_right_comm]

theorem foldl_add_perm {l1 l2 : List PyNum} (h : l1.Perm l2) :
    ∀ acc, l1.foldl PyNum.add acc = l2.foldl PyNum.add acc := by
  induction h with
  | nil => intro acc; rfl
  | cons x _ ih => intro acc; simp only [List.foldl_cons]; exact ih _
  | swap x y l => intro acc; simp only [List.foldl_cons, addRightComm]
  | trans _ _ ih1 ih2 => intro acc; rw [ih1, ih2]

theorem sumN_perm {l1 l2 : List PyNum} (h : l1.Perm l2) :
    sumN l1 = sumN l2 := foldl_add_perm h _

theorem mul_fin_ne_zero (n : ℚ) (s : PyNum) (hn : n ≠ 0)
    (hs : s ≠ .fin 0) : PyNum.mul (.fin n) s ≠ .fin 0 := by
  cases s with
  | fin q =>
    have hq : q ≠ 0 := by
      intro hq0
      exact hs (by rw [hq0])
    simp [PyNum.mul, mul_ne_zero hn hq]
  | inf =>
    simp only [PyNum.mul]
    by_cases h1 : n > 0 <;> by_cases h2 : n < 0 <;> simp [h1, h2]
  | ninf =>
    simp only [PyNum.mul]
    by_cases h1 : n > 0 <;> by_cases h2 : n < 0 <;> simp [h1, h2]
  | nan => simp [PyNum.mul]

theorem div_ok (a b : PyNum) (hb : b ≠ .fin 0) :
    ∃ r, PyNum.div a b = .ok r := by
  cases b with
  | fin q =>
    have hq : q ≠ 0 := by
      intro hq0
      exact hb (by rw [hq0])
    cases a with
    | fin p => exact ⟨.fin (p / q), by simp [PyNum.div, hq]⟩
    | inf => exact ⟨if q > 0 then .inf else .ninf, by simp [PyNum.div, hq]⟩
    | ninf => exact ⟨if q > 0 then .ninf else .inf, by simp [PyNum.div, hq]⟩
    | nan => exact ⟨.nan, by simp [PyNum.div, hq]⟩
  | inf => cases a <;> exact ⟨_, rfl⟩
  | ninf => cases a <;> exact ⟨_, rfl⟩
  | nan => cases a <;> exact ⟨_, rfl⟩

/-- C5 (amended): `calculate_gini_coefficient` returns 0 for fewer than
2 values; for 2 or more numeric values whose sum is nonzero it returns
a number without raising; but for values summing to exactly 0 the final
`(2*cumsum)/(n*sum)` division raises `ZeroDivisionError` (see the
counterexample), so the degenerate zero-sum input is not neutralized. -/
theorem calculate_gini_coefficient_amended :
    (∀ values : List PyVal, values.length < 2 →
      calculate_gini_coefficient values = .ok (.fin 0)) ∧
    (∀ ns : List PyNum, 2 ≤ ns.length → sumN ns ≠ .fin 0 →
      ∃ g, calculate_gini_coefficient (ns.map PyVal.num) = .ok g) := by
  constructor
  · intro values h
    simp [calculate_gini_coefficient, h]
  · intro ns h2 hs
    have hlen : ¬ ((ns.map PyVal.num).length < 2) := by
      rw [List.length_map]
      omega
    have hall : ∀ v ∈ ns.map PyVal.num, ∃ m, v = .num m := by
      intro v hv
      obtain ⟨m, _, rfl⟩ := List.mem_map.mp hv
      exact ⟨m, rfl⟩
    have hallS : ∀ v ∈ sortB (fun a b => PyNum.ltB (toNumP a) (toNumP b))
        (ns.map PyVal.num), ∃ m, v = .num m :=
      fun v hv => hall v ((sortB_perm _ _).mem_iff.mp hv)
    obtain ⟨c, hc⟩ := giniCumsum_ok _ hallS 0 (.fin 0)
    have hsum := pySumAux_allnum _ hallS (.fin 0)
    have hpermN : ((sortB (fun a b => PyNum.ltB (toNumP a) (toNumP b))
        (ns.map PyVal.num)).map toNumP).Perm ns := by
      have h1 := (sortB_perm (fun a b => PyNum.ltB (toNumP a) (toNumP b))
        (ns.map PyVal.num)).map toNumP
      rw [List.map_map] at h1
      have hid : (toNumP ∘ PyVal.num) = fun m : PyNum => m := rfl
      rw [hid, List.map_id'] at h1
      exact h1
    have hsval : (sortB (fun a b => PyNum.ltB (toNumP a) (toNumP b))
        (ns.map PyVal.num)).foldl (fun a v => PyNum.add a (toNumP v))
          (.fin 0) ≠ .fin 0 := by
      have h1 := foldl_add_perm hpermN (PyNum.fin 0)
      rw [List.foldl_map] at h1
      intro h0
      refine hs ?_
      show ns.foldl PyNum.add (.fin 0) = .fin 0
      rw [← h1]
      exact h0
    have hn0 : ((sortB (fun a b => PyNum.ltB (toNumP a) (toNumP b))
        (ns.map PyVal.num)).length : ℚ) ≠ 0 := by
      rw [(sortB_perm _ _).length_eq, List.length_map]
      have : ns.length ≠ 0 := by omega
      exact_mod_cast this
    obtain ⟨d1, hd1⟩ := div_ok (PyNum.mul (.fin 2) c)
      (PyNum.mul (.fin ((sortB (fun a b => PyNum.ltB (toNumP a) (toNumP b))
        (ns.map PyVal.num)).length : ℚ))
        ((sortB (fun a b => PyNum.ltB (toNumP a) (toNumP b))
          (ns.map PyVal.num)).foldl (fun a v => PyNum.add a (toNumP v))
            (.fin 0)))
      (mul_fin_ne_zero _ _ hn0 hsval)
    obtain ⟨d2, hd2⟩ := div_ok
      (.fin (((sortB (fun a b => PyNum.ltB (toNumP a) (toNumP b))
        (ns.map PyVal.num)).length : ℚ) + 1))
      (.fin ((sortB (fun a b => PyNum.ltB (toNumP a) (toNumP b))
        (ns.map PyVal.num)).length : ℚ))
      (by
        intro hfin
        exact hn0 (PyNum.fin.inj hfin))
    refine ⟨PyNum.sub d1 d2, ?_⟩
    rw [calculate_gini_coefficient, if_neg hlen]
    simp only [Bind.bind, Except.bind, pure, Except.pure, pySum,
      sortE_allnum _ hall, hc, hsum, hd1, hd2]

/-- Witness for C5 (amended) at concrete inputs. -/
theorem calculate_gini_coefficient_amended_witness :
    calculate_gini_coefficient [.num (.fin 7)] = .ok (.fin 0) ∧
    ∃ g, calculate_gini_coefficient
      [PyVal.num (.fin 1), PyVal.num (.fin 2)] = .ok g := by
  constructor
  · exact calculate_gini_coefficient_amended.1 [.num (.fin 7)] (by simp)
  · have h := calculate_gini_coefficient_amended.2 [.fin 1, .fin 2]
      (by simp) (by simp [sumN, PyNum.add]; norm_num)
    simpa using h

/-- Counterexample for C5 as stated: on two zero values (sum 0) the
code raises `ZeroDivisionError` instead of returning a number. -/
theorem calculate_gini_coefficient_counterexample :
    calculate_gini_coefficient [PyVal.num (.fin 0), PyVal.num (.fin 0)] =
      .error .zeroDivisionError := by
  norm_num [calculate_gini_coefficient, sortE, insertE, pyLt, PyNum.ltB,
    giniCumsum, pySum, pySumAux, PyVal.toNum, PyNum.add, PyNum.mul,
    PyNum.div, Bind.bind, Except.bind, pure, Except.pure]

/-- The anomaly test `abs((value - mean) / std_dev) > threshold` with
`std_dev = variance ** 0.5`, encoded without square roots: for a finite
positive variance `q`, `|d|/sqrt(q) > t` holds iff `t` is negative (the
left side is nonnegative) or `d*d > t*t*q` (squaring the nonnegative
comparison); `nan` operands make the comparison false, an infinite
`d` over a finite positive variance gives `z = inf`, and an infinite
variance gives `z = 0` for finite `d` and `nan` otherwise.  A variance
that is exactly 0 is unreachable here (the caller returns early), and a
negative finite variance cannot arise from a mean of squares; both give
`false`. -/
def zAbsGt (d var t : PyNum) : Bool :=
  match var with
  | .nan => false
  | .ninf => false
  | .inf =>
    match d with
    | .fin _ => PyNum.gtB (.fin 0) t
    | _ => false
  | .fin q =>
    if q ≤ 0 then false
    else
      match d with
      | .nan => false
      | .inf => PyNum.gtB .inf t
      | .ninf => PyNum.gtB .inf t
      | .fin a =>
        match t with
        | .nan => false
        | .inf => false
        | .ninf => true
        | .fin tq => if tq < 0 then true else decide (a * a > tq * tq * q)

/-- The `sum((v - mean) ** 2 for v in values)` accumulation of
`detect_anomalies`.  It runs only after `sum(values)` succeeded, so all
values are numeric and the pure `toNumP` reading is exact. -/
def sqSumAux (mean : PyNum) : PyNum → List PyVal → PyNum
  | acc, [] => acc
  | acc, v :: vs =>
    sqSumAux mean
      (PyNum.add acc (PyNum.mul (PyNum.sub (toNumP v) mean)
        (PyNum.sub (toNumP v) mean))) vs

/-- `detect_anomalies(data, field, threshold)`: `[]` below 3 records;
else z-score filter over the population mean/standard deviation of the
field values (missing fields read as 0); `[]` when the standard
deviation is 0 (equivalently, when the variance is 0). -/
def detect_anomalies (data : List PyVal) (field : String)
    (threshold : PyNum) : Except PyErr (List PyVal) :=
  if data.length < 3 then .ok []
  else do
    let values ← exMap (fun item => PyVal.getD item field (.num (.fin 0))) data
    let s ← pySum values
    let mean ← PyNum.div s (.fin (values.length : ℚ))
    let variance ← PyNum.div (sqSumAux mean (.fin 0) values)
      (.fin (values.length : ℚ))
    if PyNum.eqB variance (.fin 0) then .ok []
    else
      .ok (((data.zip values).filter (fun p =>
        zAbsGt (PyNum.sub (toNumP p.2) mean) variance threshold)).map
          Prod.fst)

theorem exMap_getD_const (field : String) (c : PyNum) (data : List PyVal)
    (h : ∀ item ∈ data, PyVal.getD item field (.num (.fin 0)) = .ok (.num c)) :
    exMap (fun item => PyVal.getD item field (.num (.fin 0))) data =
      .ok (List.replicate data.length (.num c)) := by
  induction data with
  | nil => rfl
  | cons x xs ih =>
    simp [exMap, h x (by simp), ih (fun y hy => h y (by simp [hy])),
      Bind.bind, Except.bind, pure, Except.pure, List.replicate_succ]

theorem pySumAux_rep_fin (q : ℚ) : ∀ (k : Nat) (a : ℚ),
    pySumAux (.fin a) (List.replicate k (.num (.fin q))) =
      .ok (.fin (a + k * q)) := by
  intro k
  induction k with
  | zero => intro a; simp [pySumAux]
  | succ k ih =>
    intro a
    simp only [List.replicate_succ, pySumAux, PyVal.toNum, PyNum.add,
      Bind.bind, Except.bind, ih (a + q)]
    congr 1
    push_cast
    ring_nf

theorem pySumAux_nan_allnum (l : List PyVal)
    (h : ∀ v ∈ l, ∃ m, v = .num m) : pySumAux .nan l = .ok .nan := by
  induction l with
  | nil => rfl
  | cons v vs ih =>
    obtain ⟨m, rfl⟩ := h v (by simp)
    simp [pySumAux, PyVal.toNum, PyNum.add, Bind.bind, Except.bind,
      ih (fun w hw => h w (by simp [hw]))]

theorem pySumAux_inf_rep (k : Nat) :
    pySumAux .inf (List.replicate k (.num .inf)) = .ok .inf := by
  induction k with
  | zero => rfl
  | succ k ih =>
    simp [List.replicate_succ, pySumAux, PyVal.toNum, PyNum.add,
      Bind.bind, Except.bind, ih]

theorem pySumAux_ninf_rep (k : Nat) :
    pySumAux .ninf (List.replicate k (.num .ninf)) = .ok .ninf := by
  induction k with
  | zero => rfl
  | succ k ih =>
    simp [List.replicate_succ, pySumAux, PyVal.toNum, PyNum.add,
      Bind.bind, Except.bind, ih]

theorem sqSumAux_nanacc (mean : PyNum) (l : List PyVal) :
    sqSumAux mean .nan l = .nan := by
  induction l with
  | nil => rfl
  | cons v vs ih => simp [sqSumAux, PyNum.add, ih]

theorem sqSumAux_rep_fin (q : ℚ) : ∀ (k : Nat) (a : ℚ),
    sqSumAux (.fin q) (.fin a) (List.replicate k (.num (.fin q))) =
      .fin a := by
  intro k
  induction k with
  | zero => intro a; rfl
  | succ k ih =>
    intro a
    simp only [List.replicate_succ, sqSumAux, toNumP, PyNum.sub, PyNum.neg,
      PyNum.add, PyNum.mul]
    have h : a + (q + -q) * (q + -q) = a := by ring
    rw [h]
    exact ih a

theorem div_fin_fin (p q : ℚ) (hq : q ≠ 0) :
    PyNum.div (.fin p) (.fin q) = .ok (.fin (p / q)) := by
  simp [PyNum.div, hq]

theorem div_nan_fin (q : ℚ) (hq : q ≠ 0) :
    PyNum.div .nan (.fin q) = .ok .nan := by
  simp [PyNum.div, hq]

theorem div_inf_fin_pos (q : ℚ) (hq : 0 < q) :
    PyNum.div .inf (.fin q) = .ok .inf := by
  simp [PyNum.div, hq.ne', hq]

theorem div_ninf_fin_pos (q : ℚ) (hq : 0 < q) :
    PyNum.div .ninf (.fin q) = .ok .ninf := by
  simp [PyNum.div, hq.ne', hq]

theorem pySum_nan_rep (k : Nat) :
    pySum (List.replicate (k + 1) (.num .nan)) = .ok .nan := by
  simp only [pySum, List.replicate_succ, pySumAux, PyVal.toNum, Bind.bind,
    Except.bind, PyNum.add]
  exact pySumAux_nan_allnum _ (fun v hv => ⟨.nan, List.eq_of_mem_replicate hv⟩)

theorem pySum_inf_rep (k : Nat) :
    pySum (List.replicate (k + 1) (.num .inf)) = .ok .inf := by
  simp only [pySum, List.replicate_succ, pySumAux, PyVal.toNum, Bind.bind,
    Except.bind, PyNum.add]
  exact pySumAux_inf_rep k

theorem pySum_ninf_rep (k : Nat) :
    pySum (List.replicate (k + 1) (.num .ninf)) = .ok .ninf := by
  simp only [pySum, List.replicate_succ, pySumAux, PyVal.toNum, Bind.bind,
    Except.bind, PyNum.add]
  exact pySumAux_ninf_rep k

theorem sqSumAux_nan_rep (k : Nat) :
    sqSumAux .nan (.fin 0) (List.replicate (k + 1) (.num .nan)) = .nan := by
  simp only [List.replicate_succ, sqSumAux, toNumP, PyNum.sub, PyNum.neg,
    PyNum.add, PyNum.mul]
  exact sqSumAux_nanacc _ _

theorem sqSumAux_inf_rep (k : Nat) :
    sqSumAux .inf (.fin 0) (List.replicate (k + 1) (.num .inf)) = .nan := by
  simp only [List.replicate_succ, sqSumAux, toNumP, PyNum.sub, PyNum.neg,
    PyNum.add, PyNum.mul]
  exact sqSumAux_nanacc _ _

theorem sqSumAux_ninf_rep (k : Nat) :
    sqSumAux .ninf (.fin 0) (List.replicate (k + 1) (.num .ninf)) = .nan := by
  simp only [List.replicate_succ, sqSumAux, toNumP, PyNum.sub, PyNum.neg,
    PyNum.add, PyNum.mul]
  exact sqSumAux_nanacc _ _

theorem anomalyFilter_nan (data values : List PyVal) (mean t : PyNum) :
    ((data.zip values).filter (fun p =>
      zAbsGt (PyNum.sub (toNumP p.2) mean) .nan t)).map Prod.fst = [] := by
  simp [zAbsGt]

/-- Evaluation skeleton of `detect_anomalies` given the values, sum,
mean and variance of a run. -/
theorem detect_anomalies_eval (data : List PyVal) (field : String)
    (t : PyNum) (values : List PyVal) (s mean variance : PyNum)
    (hlen : ¬ data.length < 3)
    (hvals : exMap (fun item => PyVal.getD item field (.num (.fin 0)))
      data = .ok values)
    (hs : pySum values = .ok s)
    (hmean : PyNum.div s (.fin (values.length : ℚ)) = .ok mean)
    (hvar : PyNum.div (sqSumAux mean (.fin 0) values)
      (.fin (values.length : ℚ)) = .ok variance) :
    detect_anomalies data field t =
      .ok (if PyNum.eqB variance (.fin 0) then []
        else ((data.zip values).filter (fun p =>
          zAbsGt (PyNum.sub (toNumP p.2) mean) variance t)).map
            Prod.fst) := by
  rw [detect_anomalies, if_neg hlen]
  simp only [Bind.bind, Except.bind, pure, Except.pure, hvals, hs, hmean,
    hvar]
  by_cases h : PyNum.eqB variance (.fin 0) = true
  · simp [h]
  · simp only [Bool.not_eq_true] at h
    simp [h]

/-- C8: `detect_anomalies` returns `[]` whenever the data has fewer than
3 records, and returns `[]` whenever every record's field value
(missing read as 0) is one and the same number — zero population
standard deviation — regardless of the threshold (for identical finite
values the variance is exactly 0; for identical non-finite values every
z-score comparison is false). -/
theorem detect_anomalies_spec (data : List PyVal) (field : String)
    (t : PyNum) :
    (data.length < 3 → detect_anomalies data field t = .ok []) ∧
    (∀ c : PyNum, 3 ≤ data.length →
      (∀ item ∈ data,
        PyVal.getD item field (.num (.fin 0)) = .ok (.num c)) →
      detect_anomalies data field t = .ok []) := by
  constructor
  · intro h
    simp [detect_anomalies, h]
  · intro c h3 hv
    have hlen : ¬ (data.length < 3) := by omega
    have hvals := exMap_getD_const field c data hv
    obtain ⟨k, hk⟩ : ∃ k, data.length = k + 1 := ⟨data.length - 1, by omega⟩
    rw [hk] at hvals
    have hn1 : (((k + 1 : Nat) : ℚ)) ≠ 0 := by
      exact_mod_cast Nat.succ_ne_zero k
    have hpos : (0 : ℚ) < ((k + 1 : Nat) : ℚ) := by positivity
    have hrl : (List.replicate (k + 1) (PyVal.num c)).length = k + 1 :=
      List.length_replicate (k + 1) (PyVal.num c)
    cases c with
    | fin q =>
      have harith : (0 + ((k + 1 : Nat) : ℚ) * q) / ((k + 1 : Nat) : ℚ) = q := by
        field_simp
      have hmean : PyNum.div (.fin (0 + ((k + 1 : Nat) : ℚ) * q))
          (.fin (((List.replicate (k + 1) (PyVal.num (.fin q))).length : Nat) : ℚ)) =
          .ok (.fin q) := by
        rw [hrl, div_fin_fin _ _ hn1, harith]
      have hvar : PyNum.div
          (sqSumAux (.fin q) (.fin 0) (List.replicate (k + 1) (.num (.fin q))))
          (.fin (((List.replicate (k + 1) (PyVal.num (.fin q))).length : Nat) : ℚ)) =
          .ok (.fin (0 / ((k + 1 : Nat) : ℚ))) := by
        rw [hrl, sqSumAux_rep_fin q (k + 1) 0, div_fin_fin _ _ hn1]
      rw [detect_anomalies_eval data field t _ _ _ _ hlen hvals
        (by
          rw [pySum]
          exact pySumAux_rep_fin q (k + 1) 0) hmean hvar]
      simp [PyNum.eqB, zero_div]
    | nan =>
      have hmean : PyNum.div .nan
          (.fin (((List.replicate (k + 1) (PyVal.num .nan)).length : Nat) : ℚ)) =
          .ok .nan := by
        rw [hrl]
        exact div_nan_fin _ hn1
      have hvar : PyNum.div
          (sqSumAux .nan (.fin 0) (List.replicate (k + 1) (.num .nan)))
          (.fin (((List.replicate (k + 1) (PyVal.num .nan)).length : Nat) : ℚ)) =
          .ok .nan := by
        rw [hrl, sqSumAux_nan_rep k]
        exact div_nan_fin _ hn1
      rw [detect_anomalies_eval data field t _ _ _ _ hlen hvals
        (pySum_nan_rep k) hmean hvar]
      simp [PyNum.eqB, anomalyFilter_nan]
    | inf =>
      have hmean : PyNum.div .inf
          (.fin (((List.replicate (k + 1) (PyVal.num .inf)).length : Nat) : ℚ)) =
          .ok .inf := by
        rw [hrl]
        exact div_inf_fin_pos _ hpos
      have hvar : PyNum.div
          (sqSumAux .inf (.fin 0) (List.replicate (k + 1) (.num .inf)))
          (.fin (((List.replicate (k + 1) (PyVal.num .inf)).length : Nat) : ℚ)) =
          .ok .nan := by
        rw [hrl, sqSumAux_inf_rep k]
        exact div_nan_fin _ hn1
      rw [detect_anomalies_eval data field t _ _ _ _ hlen hvals
        (pySum_inf_rep k) hmean hvar]
      simp [PyNum.eqB, anomalyFilter_nan]
    | ninf =>
      have hmean : PyNum.div .ninf
          (.fin (((List.replicate (k + 1) (PyVal.num .ninf)).length : Nat) : ℚ)) =
          .ok .ninf := by
        rw [hrl]
        exact div_ninf_fin_pos _ hpos
      have hvar : PyNum.div
          (sqSumAux .ninf (.fin 0) (List.replicate (k + 1) (.num .ninf)))
          (.fin (((List.replicate (k + 1) (PyVal.num .ninf)).length : Nat) : ℚ)) =
          .ok .nan := by
        rw [hrl, sqSumAux_ninf_rep k]
        exact div_nan_fin _ hn1
      rw [detect_anomalies_eval data field t _ _ _ _ hlen hvals
        (pySum_ninf_rep k) hmean hvar]
      simp [PyNum.eqB, anomalyFilter_nan]

theorem dGet_dSet_same (fs : List (String × PyVal)) (k : String) (v : PyVal) :
    PyVal.dGet (PyVal.dSet fs k v) k = some v := by
  induction fs with
  | nil => simp [PyVal.dSet, PyVal.dGet]
  | cons e fs ih =>
    by_cases h : e.1 = k <;>
      simp [PyVal.dSet, PyVal.dGet, h, ih]

theorem dGet_dSet_other (fs : List (String × PyVal)) (k k2 : String)
    (v : PyVal) (h : k ≠ k2) :
    PyVal.dGet (PyVal.dSet fs k v) k2 = PyVal.dGet fs k2 := by
  induction fs with
  | nil => simp [PyVal.dSet, PyVal.dGet, h]
  | cons e fs ih =>
    by_cases h1 : e.1 = k <;>
      simp [PyVal.dSet, PyVal.dGet, h1, h, ih]

theorem dSet_dGet_eq (fs : List (String × PyVal)) (k : String) (v : PyVal)
    (h : PyVal.dGet fs k = some v) : PyVal.dSet fs k v = fs := by
  induction fs with
  | nil => simp [PyVal.dGet] at h
  | cons e fs ih =>
    by_cases h1 : e.1 = k
    · rw [PyVal.dGet] at h
      rw [if_pos h1] at h
      obtain ⟨k1, v1⟩ := e
      simp only at h1
      injection h with h2
      simp only at h2
      simp [PyVal.dSet, h1, h2]
    · rw [PyVal.dGet, if_neg h1] at h
      simp [PyVal.dSet, h1, ih h]

theorem validate_price_shape (x : PyVal) :
    ∃ q : ℚ, validate_price x = .fin q ∧ 0 ≤ q := by
  cases x with
  | none => exact ⟨0, rfl, le_refl 0⟩
  | bool b =>
    cases b with
    | false => exact ⟨0, by simp [validate_price, PyVal.pyFloat, PyNum.gtB,
        PyNum.ltB], le_refl 0⟩
    | true => exact ⟨1, by norm_num [validate_price, PyVal.pyFloat,
        PyNum.gtB, PyNum.ltB, PyNum.isFinite], by norm_num⟩
  | num m =>
    cases m with
    | fin q =>
      by_cases h : (0 : ℚ) < q
      · refine ⟨q, ?_, le_of_lt h⟩
        simp [validate_price, PyVal.pyFloat, PyNum.gtB, PyNum.ltB,
          PyNum.isFinite, h]
      · refine ⟨0, ?_, le_refl 0⟩
        simp [validate_price, PyVal.pyFloat, PyNum.gtB, PyNum.ltB,
          PyNum.isFinite, h]
    | inf => exact ⟨0, by simp [validate_price, PyVal.pyFloat, PyNum.gtB,
        PyNum.ltB, PyNum.isFinite], le_refl 0⟩
    | ninf => exact ⟨0, by simp [validate_price, PyVal.pyFloat, PyNum.gtB,
        PyNum.ltB, PyNum.isFinite], le_refl 0⟩
    | nan => exact ⟨0, by simp [validate_price, PyVal.pyFloat, PyNum.gtB,
        PyNum.ltB, PyNum.isFinite], le_refl 0⟩
  | str s =>
    have hunfold : validate_price (.str s) =
        match PyVal.pyFloat (.str s) with
        | .ok m =>
          if PyNum.gtB m (.fin 0) && PyNum.isFinite m then m else .fin 0
        | .error _ => .fin 0 := rfl
    rw [hunfold]
    cases hf : PyVal.pyFloat (.str s) with
    | error e => exact ⟨0, rfl, le_refl 0⟩
    | ok m =>
      cases m with
      | fin q =>
        by_cases h : (0 : ℚ) < q
        · refine ⟨q, ?_, le_of_lt h⟩
          simp [PyNum.gtB, PyNum.ltB, PyNum.isFinite, h]
        · refine ⟨0, ?_, le_refl 0⟩
          simp [PyNum.gtB, PyNum.ltB, PyNum.isFinite, h]
      | inf => exact ⟨0, by simp [PyNum.gtB, PyNum.ltB, PyNum.isFinite],
          le_refl 0⟩
      | ninf => exact ⟨0, by simp [PyNum.gtB, PyNum.ltB, PyNum.isFinite],
          le_refl 0⟩
      | nan => exact ⟨0, by simp [PyNum.gtB, PyNum.ltB, PyNum.isFinite],
          le_refl 0⟩
  | list xs => exact ⟨0, by simp [validate_price, PyVal.pyFloat], le_refl 0⟩
  | dict fs => exact ⟨0, by simp [validate_price, PyVal.pyFloat], le_refl 0⟩

theorem validate_price_num_fix (q : ℚ) (h : 0 ≤ q) :
    validate_price (.num (.fin q)) = .fin q := by
  by_cases h1 : (0 : ℚ) < q
  · simp [validate_price, PyVal.pyFloat, PyNum.gtB, PyNum.ltB,
      PyNum.isFinite, h1]
  · have h0 : q = 0 := le_antisymm (not_lt.mp h1) h
    simp [validate_price, PyVal.pyFloat, PyNum.gtB, PyNum.ltB,
      PyNum.isFinite, h1, h0]

theorem maxZero_shape (x : PyNum) :
    (∃ q : ℚ, PyNum.maxZero x = .fin q ∧ 0 ≤ q) ∨ PyNum.maxZero x = .inf := by
  cases x with
  | fin q =>
    by_cases h : (0 : ℚ) < q
    · exact Or.inl ⟨q, by simp [PyNum.maxZero, PyNum.gtB, PyNum.ltB, h],
        le_of_lt h⟩
    · exact Or.inl ⟨0, by simp [PyNum.maxZero, PyNum.gtB, PyNum.ltB, h],
        le_refl 0⟩
  | inf => exact Or.inr rfl
  | ninf => exact Or.inl ⟨0, rfl, le_refl 0⟩
  | nan => exact Or.inl ⟨0, rfl, le_refl 0⟩

theorem maxZero_fin_fix (q : ℚ) (h : 0 ≤ q) :
    PyNum.maxZero (.fin q) = .fin q := by
  by_cases h1 : (0 : ℚ) < q
  · simp [PyNum.maxZero, PyNum.gtB, PyNum.ltB, h1]
  · have h0 : q = 0 := le_antisymm (not_lt.mp h1) h
    simp [PyNum.maxZero, PyNum.gtB, PyNum.ltB, h1, h0]

theorem cleanVolume_shape (fs : List (String × PyVal)) (v : PyNum)
    (h : cleanVolume (.dict fs) = .ok v) :
    (∃ q : ℚ, v = .fin q ∧ 0 ≤ q) ∨ v = .inf := by
  simp only [cleanVolume, PyVal.getN, PyVal.getD, Bind.bind, Except.bind,
    pure, Except.pure] at h
  by_cases hnone : (PyVal.dGet fs "volume_usd").getD PyVal.none = PyVal.none
  · rw [if_pos hnone] at h
    injection h with h1
    exact Or.inl ⟨0, h1.symm, le_refl 0⟩
  · rw [if_neg hnone] at h
    cases hf : PyVal.pyFloat ((PyVal.dGet fs "volume_usd").getD PyVal.none) with
    | error e =>
      rw [hf] at h
      exact absurd h (by simp)
    | ok m =>
      rw [hf] at h
      injection h with h1
      exact h1 ▸ maxZero_shape m

theorem cleanVolume_reclean (fs : List (String × PyVal)) (v : PyNum)
    (hget : PyVal.dGet fs "volume_usd" = some (.num v))
    (hshape : (∃ q : ℚ, v = .fin q ∧ 0 ≤ q) ∨ v = .inf) :
    cleanVolume (.dict fs) = .ok v := by
  simp only [cleanVolume, PyVal.getN, PyVal.getD, hget, Option.getD,
    Bind.bind, Except.bind, pure, Except.pure, PyVal.pyFloat,
    reduceCtorEq, if_false]
  rcases hshape with ⟨q, rfl, hq⟩ | rfl
  · rw [maxZero_fin_fix q hq]
  · rfl

theorem cleanTransactions_shape (fs : List (String × PyVal)) (t : ℤ)
    (h : cleanTransactions (.dict fs) = .ok t) : 0 ≤ t := by
  simp only [cleanTransactions, PyVal.getN, PyVal.getD, Bind.bind,
    Except.bind, pure, Except.pure] at h
  by_cases hnone : (PyVal.dGet fs "transactions").getD PyVal.none = PyVal.none
  · rw [if_pos hnone] at h
    injection h with h1
    omega
  · rw [if_neg hnone] at h
    cases hf : PyVal.pyInt ((PyVal.dGet fs "transactions").getD PyVal.none) with
    | error e =>
      rw [hf] at h
      exact absurd h (by simp)
    | ok i =>
      rw [hf] at h
      injection h with h1
      omega

theorem cleanTransactions_reclean (fs : List (String × PyVal)) (t : ℤ)
    (hget : PyVal.dGet fs "transactions" = some (.num (.fin (t : ℚ))))
    (ht : 0 ≤ t) : cleanTransactions (.dict fs) = .ok t := by
  have hcast : (0 : ℚ) ≤ (t : ℚ) := by exact_mod_cast ht
  simp only [cleanTransactions, PyVal.getN, PyVal.getD, hget, Option.getD,
    Bind.bind, Except.bind, pure, Except.pure, PyVal.pyInt, hcast, if_pos,
    Int.floor_intCast, reduceCtorEq, if_false]
  rw [max_eq_right ht]

theorem cleanChange_shape (fs : List (String × PyVal)) (c : PyNum)
    (h : cleanChange (.dict fs) = .ok c) : ∃ q : ℚ, c = .fin q := by
  simp only [cleanChange, PyVal.getN, PyVal.getD, Bind.bind, Except.bind,
    pure, Except.pure] at h
  by_cases hnone : (PyVal.dGet fs "last_price_change_usd_24h").getD
      PyVal.none = PyVal.none
  · rw [if_pos hnone] at h
    injection h with h1
    exact ⟨0, h1.symm⟩
  · rw [if_neg hnone] at h
    cases hf : PyVal.pyFloat ((PyVal.dGet fs "last_price_change_usd_24h").getD
        PyVal.none) with
    | error e =>
      rw [hf] at h
      exact absurd h (by simp)
    | ok m =>
      rw [hf] at h
      injection h with h1
      cases m with
      | fin q =>
        rw [← h1]
        simp only [PyNum.isFinite, if_pos]
        exact ⟨q, rfl⟩
      | inf =>
        rw [← h1]
        exact ⟨0, rfl⟩
      | ninf =>
        rw [← h1]
        exact ⟨0, rfl⟩
      | nan =>
        rw [← h1]
        exact ⟨0, rfl⟩

theorem cleanChange_reclean (fs : List (String × PyVal)) (q : ℚ)
    (hget : PyVal.dGet fs "last_price_change_usd_24h" =
      some (.num (.fin q))) : cleanChange (.dict fs) = .ok (.fin q) := by
  simp [cleanChange, PyVal.getN, PyVal.getD, hget, Option.getD, Bind.bind,
    Except.bind, pure, Except.pure, PyVal.pyFloat, PyNum.isFinite]

theorem cleanRecord_fix (p r : PyVal) (h : cleanRecord p = .ok (some r)) :
    cleanRecord r = .ok (some r) := by
  cases p with
  | none => exact absurd h (by simp [cleanRecord, pure, Except.pure])
  | bool b => exact absurd h (by simp [cleanRecord, pure, Except.pure])
  | num m => exact absurd h (by simp [cleanRecord, pure, Except.pure])
  | str s => exact absurd h (by simp [cleanRecord, pure, Except.pure])
  | list xs => exact absurd h (by simp [cleanRecord, pure, Except.pure])
  | dict fs =>
    simp only [cleanRecord, Bind.bind, Except.bind, pure, Except.pure] at h
    cases hv : cleanVolume (.dict fs) with
    | error e =>
      rw [hv] at h
      exact absurd h (by simp)
    | ok v =>
      rw [hv] at h
      cases ht : cleanTransactions (.dict fs) with
      | error e =>
        rw [ht] at h
        exact absurd h (by simp)
      | ok t =>
        rw [ht] at h
        cases hc : cleanChange (.dict fs) with
        | error e =>
          rw [hc] at h
          exact absurd h (by simp)
        | ok c =>
          rw [hc] at h
          dsimp only at h
          by_cases hret :
            (PyNum.gtB (validate_price ((PyVal.dGet fs "price_usd").getD
              .none)) (.fin 0) || PyNum.gtB v (.fin 0)) = true
          · rw [if_pos hret] at h
            injection h with h1
            injection h1 with h2
            obtain ⟨q0, hq0, hq0n⟩ :=
              validate_price_shape ((PyVal.dGet fs "price_usd").getD .none)
            subst h2
            obtain ⟨qc, rfl⟩ := cleanChange_shape fs c hc
            have hg1 : PyVal.dGet (PyVal.dSet (PyVal.dSet (PyVal.dSet
                (PyVal.dSet fs "price_usd" (.num (validate_price
                  ((PyVal.dGet fs "price_usd").getD .none))))
                "volume_usd" (.num v)) "transactions" (.num (.fin (t : ℚ))))
                "last_price_change_usd_24h" (.num (.fin qc)))
                "price_usd" = some (.num (validate_price
                  ((PyVal.dGet fs "price_usd").getD .none))) := by
              rw [dGet_dSet_other _ _ _ _ (by decide),
                dGet_dSet_other _ _ _ _ (by decide),
                dGet_dSet_other _ _ _ _ (by decide),
                dGet_dSet_same]
            have hg2 : PyVal.dGet (PyVal.dSet (PyVal.dSet (PyVal.dSet
                (PyVal.dSet fs "price_usd" (.num (validate_price
                  ((PyVal.dGet fs "price_usd").getD .none))))
                "volume_usd" (.num v)) "transactions" (.num (.fin (t : ℚ))))
                "last_price_change_usd_24h" (.num (.fin qc)))
                "volume_usd" = some (.num v) := by
              rw [dGet_dSet_other _ _ _ _ (by decide),
                dGet_dSet_other _ _ _ _ (by decide),
                dGet_dSet_same]
            have hg3 : PyVal.dGet (PyVal.dSet (PyVal.dSet (PyVal.dSet
                (PyVal.dSet fs "price_usd" (.num (validate_price
                  ((PyVal.dGet fs "price_usd").getD .none))))
                "volume_usd" (.num v)) "transactions" (.num (.fin (t : ℚ))))
                "last_price_change_usd_24h" (.num (.fin qc)))
                "transactions" = some (.num (.fin (t : ℚ))) := by
              rw [dGet_dSet_other _ _ _ _ (by decide), dGet_dSet_same]
            have hg4 : PyVal.dGet (PyVal.dSet (PyVal.dSet (PyVal.dSet
                (PyVal.dSet fs "price_usd" (.num (validate_price
                  ((PyVal.dGet fs "price_usd").getD .none))))
                "volume_usd" (.num v)) "transactions" (.num (.fin (t : ℚ))))
                "last_price_change_usd_24h" (.num (.fin qc)))
                "last_price_change_usd_24h" = some (.num (.fin qc)) :=
              dGet_dSet_same _ _ _
            have hp0 : validate_price ((PyVal.dGet (PyVal.dSet (PyVal.dSet
                (PyVal.dSet (PyVal.dSet fs "price_usd" (.num (validate_price
                  ((PyVal.dGet fs "price_usd").getD .none))))
                "volume_usd" (.num v)) "transactions" (.num (.fin (t : ℚ))))
                "last_price_change_usd_24h" (.num (.fin qc)))
                "price_usd").getD .none) = validate_price
                  ((PyVal.dGet fs "price_usd").getD .none) := by
              rw [hg1, Option.getD, hq0, validate_price_num_fix q0 hq0n]
            have hrv := cleanVolume_reclean _ v hg2 (cleanVolume_shape fs v hv)
            have hrt := cleanTransactions_reclean _ t hg3
              (cleanTransactions_shape fs t ht)
            have hrc := cleanChange_reclean _ qc hg4
            simp only [cleanRecord, Bind.bind, Except.bind, pure,
              Except.pure, hrv, hrt, hrc, hp0]
            rw [if_pos hret]
            rw [dSet_dGet_eq _ _ _ hg1]
            rw [dSet_dGet_eq _ _ _ hg2]
            rw [dSet_dGet_eq _ _ _ hg3]
            rw [dSet_dGet_eq _ _ _ hg4]
          · simp only [Bool.not_eq_true] at hret
            rw [hret] at h
            simp only [Bool.false_eq_true, if_false] at h
            exact absurd h (by simp)

theorem cleanLoop_fix (ps : List PyVal) :
    ∀ l : List PyVal, cleanLoop ps = .ok l → cleanLoop l = .ok l := by
  induction ps with
  | nil =>
    intro l h
    injection h with h1
    rw [← h1]
    rfl
  | cons p ps ih =>
    intro l h
    simp only [cleanLoop, Bind.bind, Except.bind, pure, Except.pure] at h
    cases ho : cleanRecord p with
    | error e =>
      rw [ho] at h
      exact absurd h (by simp)
    | ok o =>
      rw [ho] at h
      cases hrest : cleanLoop ps with
      | error e =>
        rw [hrest] at h
        exact absurd h (by simp)
      | ok others =>
        rw [hrest] at h
        dsimp only at h
        cases o with
        | none =>
          injection h with h1
          rw [← h1]
          exact ih others hrest
        | some r =>
          injection h with h1
          rw [← h1]
          have hr := cleanRecord_fix p r ho
          have hrec := ih others hrest
          simp only [cleanLoop, Bind.bind, Except.bind, pure, Except.pure,
            hr, hrec]

/-- C9: pool cleaning is idempotent — composing `clean_pool_data` with
itself (propagating a raised exception, as Python's nested call would)
gives the same result as a single cleaning, for every input value. -/
theorem clean_pool_data_idempotent (x : PyVal) :
    clean_pool_data x >>= clean_pool_data = clean_pool_data x := by
  cases x with
  | list ps =>
    cases hl : cleanLoop ps with
    | error e =>
      simp [clean_pool_data, hl, Bind.bind, Except.bind, pure, Except.pure]
    | ok l =>
      have h2 := cleanLoop_fix ps l hl
      simp [clean_pool_data, hl, h2, Bind.bind, Except.bind, pure,
        Except.pure]
  | none =>
    show clean_pool_data (.list []) = _
    simp [clean_pool_data, cleanLoop, Bind.bind, Except.bind, pure,
      Except.pure]
  | bool b =>
    show clean_pool_data (.list []) = _
    simp [clean_pool_data, cleanLoop, Bind.bind, Except.bind, pure,
      Except.pure]
  | num m =>
    show clean_pool_data (.list []) = _
    simp [clean_pool_data, cleanLoop, Bind.bind, Except.bind, pure,
      Except.pure]
  | str s =>
    show clean_pool_data (.list []) = _
    simp [clean_pool_data, cleanLoop, Bind.bind, Except.bind, pure,
      Except.pure]
  | dict fs =>
    show clean_pool_data (.list []) = _
    simp [clean_pool_data, cleanLoop, Bind.bind, Except.bind, pure,
      Except.pure]

/-- `extract_system_stats(stats_data)`: four defaulted reads;
`AttributeError` if the stats payload is not a dict. -/
def extract_system_stats (stats_data : PyVal) : Except PyErr PyVal := do
  let chains ← PyVal.getD stats_data "chains" (.num (.fin 0))
  let factories ← PyVal.getD stats_data "factories" (.num (.fin 0))
  let pools ← PyVal.getD stats_data "pools" (.num (.fin 0))
  let tokens ← PyVal.getD stats_data "tokens" (.num (.fin 0))
  pure (.dict [("chains", chains), ("factories", factories),
    ("pools", pools), ("tokens", tokens)])

/-- `networks[:5]`: slicing a list (or a string, whose slice iterates as
one-character strings); anything else raises `TypeError`. -/
def pyTake5 : PyVal → Except PyErr (List PyVal)
  | .list xs => .ok (xs.take 5)
  | .str s => .ok ((s.toList.take 5).map (fun ch => PyVal.str (String.mk [ch])))
  | _ => .error .typeError

/-- Python hashability (usable as a dict key): lists and dicts are not. -/
def pyHashable : PyVal → Bool
  | .list _ => false
  | .dict _ => false
  | _ => true

/-- `for pool in pool_list`: lists iterate elements, strings iterate
characters, dicts iterate keys; other values raise `TypeError`. -/
def pyIter : PyVal → Except PyErr (List PyVal)
  | .list xs => .ok xs
  | .str s => .ok (s.toList.map (fun ch => PyVal.str (String.mk [ch])))
  | .dict fs => .ok (fs.map (fun e => PyVal.str e.1))
  | _ => .error .typeError

/-- `network_overview[network_id] = entry`: replace in place or append
(the overview dict is keyed by the id value, so its association list is
keyed by `PyVal`; Python `==` on keys is modelled structurally). -/
def ovSet : List (PyVal × PyVal) → PyVal → PyVal → List (PyVal × PyVal)
  | [], k, v => [(k, v)]
  | (k1, v1) :: rest, k, v =>
    if k1 = k then (k1, v) :: rest else (k1, v1) :: ovSet rest k v

/-- The `try:` body of `get_market_overview`'s network loop: fetch the
network's pools, extract, sum the volumes, build the entry dict
(`TypeError` at the dict assignment if the id is unhashable). -/
def overviewTryBody (fetchPools : PyVal → PyVal) (network nid : PyVal) :
    Except PyErr PyVal := do
  let pools := fetchPools nid
  let pool_list := extract_pools pools
  let items ← pyIter pool_list
  let vols ← exMap (fun pool => PyVal.getD pool "volume_usd"
    (.num (.fin 0))) items
  let total ← pySum vols
  let dn ← PyVal.getN network "display_name"
  if pyHashable nid then
    pure (.dict [("display_name", dn), ("total_volume", .num total),
      ("pool_count", .num (.fin (items.length : ℚ)))])
  else .error .typeError

/-- The `for network in networks[:5]` loop.  `network.get("id")` sits
outside the `try`, so its failure propagates; everything else is caught
by the bare `except: continue`. -/
def overviewLoop (fetchPools : PyVal → PyVal) :
    List PyVal → List (PyVal × PyVal) → Except PyErr (List (PyVal × PyVal))
  | [], acc => .ok acc
  | network :: rest, acc => do
    let nid ← PyVal.getN network "id"
    match overviewTryBody fetchPools network nid with
    | .ok entry => overviewLoop fetchPools rest (ovSet acc nid entry)
    | .error _ => overviewLoop fetchPools rest acc

/-- The market-overview result record (Python returns a 3-field dict;
the wall-clock timestamp is abstracted as a parameter). -/
structure MarketOverview where
  system_stats : PyVal
  network_overview : List (PyVal × PyVal)
  timestamp : String
deriving Repr, DecidableEq

/-- `get_market_overview()` with its two fetches (`/stats` result and
`/networks` result) and the per-network pools fetch abstracted as
arguments. -/
def get_market_overview (stats networks : PyVal)
    (fetchPools : PyVal → PyVal) (ts : String) :
    Except PyErr MarketOverview := do
  let stats_data ← extract_system_stats stats
  let nets ← pyTake5 networks
  let ov ← overviewLoop fetchPools nets []
  pure ⟨stats_data, ov, ts⟩

theorem getN_dict_eq (n : PyVal) (k : String) (h : n.isDict = true) :
    PyVal.getN n k = .ok (PyVal.getP n k .none) := by
  cases n <;> simp_all [PyVal.isDict, PyVal.getN, PyVal.getD, PyVal.getP]

theorem ovSet_mem_same (acc : List (PyVal × PyVal)) (k v : PyVal) :
    ∃ e, (k, e) ∈ ovSet acc k v := by
  induction acc with
  | nil => exact ⟨v, by simp [ovSet]⟩
  | cons p rest ih =>
    obtain ⟨k1, v1⟩ := p
    by_cases h : k1 = k
    · refine ⟨v, ?_⟩
      simp [ovSet, h]
    · obtain ⟨e, he⟩ := ih
      refine ⟨e, ?_⟩
      simp [ovSet, h, he]

theorem ovSet_keeps (acc : List (PyVal × PyVal)) (k k2 v2 : PyVal)
    (h : ∃ e, (k, e) ∈ acc) : ∃ e, (k, e) ∈ ovSet acc k2 v2 := by
  induction acc with
  | nil => simp at h
  | cons p rest ih =>
    obtain ⟨k1, v1⟩ := p
    obtain ⟨e, he⟩ := h
    rcases List.mem_cons.mp he with he1 | he2
    · injection he1 with hk hv
      subst hk
      subst hv
      by_cases h2 : k = k2
      · exact ⟨v2, by simp [ovSet, h2]⟩
      · exact ⟨e, by simp [ovSet, h2]⟩
    · by_cases h2 : k1 = k2
      · exact ⟨e, by simp [ovSet, h2, he2]⟩
      · obtain ⟨e3, he3⟩ := ih ⟨e, he2⟩
        exact ⟨e3, by simp [ovSet, h2, he3]⟩

theorem overviewLoop_keeps (f : PyVal → PyVal) (nets : List PyVal) :
    ∀ (acc : List (PyVal × PyVal)) (ov : List (PyVal × PyVal)) (k : PyVal),
      (∃ e, (k, e) ∈ acc) → overviewLoop f nets acc = .ok ov →
      ∃ e, (k, e) ∈ ov := by
  induction nets with
  | nil =>
    intro acc ov k hk h
    injection h with h1
    exact h1 ▸ hk
  | cons n rest ih =>
    intro acc ov k hk h
    simp only [overviewLoop, Bind.bind, Except.bind] at h
    cases hnid : PyVal.getN n "id" with
    | error e =>
      rw [hnid] at h
      exact absurd h (by simp)
    | ok nid =>
      rw [hnid] at h
      dsimp only at h
      cases hb : overviewTryBody f n nid with
      | ok entry =>
        rw [hb] at h
        exact ih (ovSet acc nid entry) ov k (ovSet_keeps acc k nid entry hk) h
      | error e =>
        rw [hb] at h
        exact ih acc ov k hk h

theorem overviewLoop_total (f : PyVal → PyVal) (nets : List PyVal)
    (hd : ∀ n ∈ nets, n.isDict = true) :
    ∀ acc, ∃ ov, overviewLoop f nets acc = .ok ov := by
  induction nets with
  | nil => exact fun acc => ⟨acc, rfl⟩
  | cons n rest ih =>
    intro acc
    have hn := getN_dict_eq n "id" (hd n (by simp))
    have ihr := ih (fun m hm => hd m (by simp [hm]))
    cases hb : overviewTryBody f n (PyVal.getP n "id" .none) with
    | ok entry =>
      obtain ⟨ov, hov⟩ := ihr (ovSet acc (PyVal.getP n "id" .none) entry)
      exact ⟨ov, by simp [overviewLoop, Bind.bind, Except.bind, hn, hb, hov]⟩
    | error e =>
      obtain ⟨ov, hov⟩ := ihr acc
      exact ⟨ov, by simp [overviewLoop, Bind.bind, Except.bind, hn, hb, hov]⟩

theorem overviewTryBody_errfetch (f : PyVal → PyVal) (n v : PyVal)
    (hnd : n.isDict = true) (hhash : pyHashable v = true)
    (efs : List (String × PyVal)) (hf : f v = .dict efs)
    (hnp : PyVal.dGet efs "pools" = Option.none) :
    overviewTryBody f n v = .ok (.dict [("display_name",
      PyVal.getP n "display_name" .none), ("total_volume", .num (.fin 0)),
      ("pool_count", .num (.fin 0))]) := by
  have hdn := getN_dict_eq n "display_name" hnd
  simp [overviewTryBody, hf, extract_pools, hnp, pyIter, exMap, pySum,
    pySumAux, hdn, hhash, Bind.bind, Except.bind, pure, Except.pure]

theorem overviewLoop_mem (f : PyVal → PyVal) (nets : List PyVal)
    (hd : ∀ m ∈ nets, m.isDict = true) (n : PyVal) (hn : n ∈ nets)
    (e0 : PyVal)
    (hbody : overviewTryBody f n (PyVal.getP n "id" .none) = .ok e0) :
    ∀ acc ov, overviewLoop f nets acc = .ok ov →
      ∃ e, (PyVal.getP n "id" .none, e) ∈ ov := by
  induction nets with
  | nil => simp at hn
  | cons m rest ih =>
    intro acc ov hov
    simp only [overviewLoop, Bind.bind, Except.bind] at hov
    have hm := getN_dict_eq m "id" (hd m (by simp))
    rw [hm] at hov
    dsimp only at hov
    rcases List.mem_cons.mp hn with rfl | hn2
    · rw [hbody] at hov
      exact overviewLoop_keeps f rest _ ov _ (ovSet_mem_same acc _ e0) hov
    · cases hb : overviewTryBody f m (PyVal.getP m "id" .none) with
      | ok entry =>
        rw [hb] at hov
        exact ih (fun x hx => hd x (by simp [hx])) hn2 _ ov hov
      | error e =>
        rw [hb] at hov
        exact ih (fun x hx => hd x (by simp [hx])) hn2 _ ov hov

/-- C4 (amended): for every outcome of the per-network pool fetches,
`get_market_overview` still returns an overview (given a dict stats
payload and dict network entries); but a network whose pool fetch fails
is *not* omitted: `api_request` returns an `error` dict rather than
raising, that dict flows through `extract_pools` as an empty pool list,
and the network is recorded with `total_volume` 0 and `pool_count` 0.
Only networks raising an exception inside the loop body are skipped. -/
theorem get_market_overview_amended (sd : List (String × PyVal))
    (ns : List PyVal) (fetch : PyVal → PyVal) (ts : String)
    (hd : ∀ n ∈ ns.take 5, n.isDict = true) :
    (∃ ov, get_market_overview (.dict sd) (.list ns) fetch ts = .ok ov) ∧
    (∀ n ∈ ns.take 5, ∀ efs : List (String × PyVal),
      fetch (PyVal.getP n "id" .none) = .dict efs →
      PyVal.dGet efs "pools" = Option.none →
      pyHashable (PyVal.getP n "id" .none) = true →
      ∀ ov, get_market_overview (.dict sd) (.list ns) fetch ts = .ok ov →
        ∃ e, (PyVal.getP n "id" .none, e) ∈ ov.network_overview) := by
  constructor
  · obtain ⟨ovl, hovl⟩ := overviewLoop_total fetch (ns.take 5) hd []
    refine ⟨⟨.dict [("chains", (PyVal.dGet sd "chains").getD (.num (.fin 0))),
      ("factories", (PyVal.dGet sd "factories").getD (.num (.fin 0))),
      ("pools", (PyVal.dGet sd "pools").getD (.num (.fin 0))),
      ("tokens", (PyVal.dGet sd "tokens").getD (.num (.fin 0)))],
      ovl, ts⟩, ?_⟩
    simp [get_market_overview, pyTake5, Bind.bind, Except.bind, pure,
      Except.pure, hovl, extract_system_stats, PyVal.getD]
  · intro n hn efs hf hnp hhash ov hov
    simp only [get_market_overview, pyTake5, extract_system_stats,
      PyVal.getD, Bind.bind, Except.bind, pure, Except.pure] at hov
    cases hl : overviewLoop fetch (ns.take 5) [] with
    | error e =>
      rw [hl] at hov
      exact absurd hov (by simp)
    | ok l =>
      rw [hl] at hov
      dsimp only at hov
      injection hov with h1
      have hbody := overviewTryBody_errfetch fetch n
        (PyVal.getP n "id" .none) (hd n hn) hhash efs hf hnp
      obtain ⟨e, he⟩ := overviewLoop_mem fetch (ns.take 5) hd n hn _ hbody [] l hl
      refine ⟨e, ?_⟩
      rw [← h1]
      exact he

/-- Witness for C4 (amended) at a single failing network. -/
theorem get_market_overview_amended_witness :
    ∃ ov, get_market_overview (.dict [])
      (.list [PyVal.dict [("id", PyVal.str "ethereum"),
        ("display_name", PyVal.str "Ethereum")]])
      (fun _ => .dict [("error", PyVal.str "timeout")]) "T" = .ok ov ∧
      ∃ e, (PyVal.str "ethereum", e) ∈ ov.network_overview := by
  have h := get_market_overview_amended []
    [PyVal.dict [("id", PyVal.str "ethereum"),
      ("display_name", PyVal.str "Ethereum")]]
    (fun _ => .dict [("error", PyVal.str "timeout")]) "T"
    (by
      intro n hn
      simp only [List.take] at hn
      rcases List.mem_cons.mp hn with rfl | h2
      · rfl
      · simp at h2)
  obtain ⟨⟨ov, hov⟩, h2⟩ := h
  refine ⟨ov, hov, ?_⟩
  exact h2 (PyVal.dict [("id", PyVal.str "ethereum"),
    ("display_name", PyVal.str "Ethereum")]) (by simp)
    [("error", PyVal.str "timeout")] rfl rfl rfl ov hov

/-- Counterexample for C4 as stated: with one network whose pools fetch
fails (the fetch yields the error dict), the network is present in
`network_overview` as a zero-valued entry — not omitted as claimed. -/
theorem get_market_overview_zero_entry_counterexample :
    ∃ ov, get_market_overview (.dict [])
      (.list [PyVal.dict [("id", PyVal.str "ethereum"),
        ("display_name", PyVal.str "Ethereum")]])
      (fun _ => .dict [("error", PyVal.str "timeout")]) "T" = .ok ov ∧
      ov.network_overview = [(PyVal.str "ethereum",
        PyVal.dict [("display_name", PyVal.str "Ethereum"),
          ("total_volume", PyVal.num (.fin 0)),
          ("pool_count", PyVal.num (.fin 0))])] := by
  refine ⟨⟨.dict [("chains", .num (.fin 0)), ("factories", .num (.fin 0)),
    ("pools", .num (.fin 0)), ("tokens", .num (.fin 0))],
    [(PyVal.str "ethereum",
      PyVal.dict [("display_name", PyVal.str "Ethereum"),
        ("total_volume", PyVal.num (.fin 0)),
        ("pool_count", PyVal.num (.fin 0))])], "T"⟩, ?_, rfl⟩
  norm_num +decide [get_market_overview, extract_system_stats, pyTake5,
    overviewLoop, overviewTryBody, extract_pools, pyIter, exMap, pySum,
    pySumAux, ovSet, PyVal.getN, PyVal.getD, PyVal.dGet, pyHashable,
    Bind.bind, Except.bind, pure, Except.pure]

/-- Witness for C8 at concrete inputs (too little data; identical values). -/
theorem detect_anomalies_spec_witness :
    detect_anomalies [] "volume_usd" (.fin 2) = .ok [] ∧
    detect_anomalies [PyVal.dict [("volume_usd", PyVal.num (.fin 4))],
      PyVal.dict [("volume_usd", PyVal.num (.fin 4))],
      PyVal.dict [("volume_usd", PyVal.num (.fin 4))]] "volume_usd"
      (.fin 2) = .ok [] :=
  ⟨(detect_anomalies_spec [] "volume_usd" (.fin 2)).1 (by simp),
    (detect_anomalies_spec _ "volume_usd" (.fin 2)).2 (.fin 4) (by simp)
      (by
        intro item h
        fin_cases h <;> rfl)⟩
